import Mathlib

/-!
Low-level varlist reader of the Stata parquet plugin

Shallow embedding of `sf_ll_read_varlist` (`src/plugin/parquet-reader-ll.cpp`).

The function talks to two collaborators: the parquet reader library (file
metadata, row groups, column cursors) and the Stata plugin interface
(`SF_scal_use`, `SF_mat_el`, `SF_vstore`, `SF_sstore`).  Both are taken as
parameters.  The run of the function is its return code together with the
trace of the calls `ReadBatch` (a pull) and `SF_vstore` / `SF_sstore`
(a store) it made, in order.

Conventions.
* `int64_t` variables are `Int`; the counters `i`, `ix`, `ig` count values of
  the file and stay far below `2^63`, so no wrap-around is modelled.
* The casts `(int64_t) z` of the retrieved doubles are taken as done by the
  retrieval: `SF_scal_use` and `SF_mat_el` return the integer.
* A pulled value is its byte string.  For the five numeric types the
  `ST_double` handed to `SF_vstore` is kept symbolic as the physical type
  together with the bytes of the value.
* `assert(rows_read == 1)` and `assert(values_read == 1)` hold: every pull
  yields one value.  `values_read` and `rows_read` are not read otherwise
  and are left out, and so are the diagnostics (`sf_printf_debug`,
  `sf_errprintf`, the timer) and the arguments `verbose`, `debug` and
  `strbuffer`, which do not reach the control flow.
* An exception of the reader library ends the function in the `catch`
  block with `return(-1)`.  It can be thrown by `OpenFile`, by
  `RowGroup(r)->Column(jsel)` and by a column cursor; `RowGroup(r)` for
  `r < num_row_groups` and the look-ups in the schema do not throw.
* Buffers are lists of bytes; a `goto exit` and the `return(-1)` of the
  `catch` block are the `.error` of `Except`, carrying what the function
  returns.
-/

namespace SParquet

/-- A byte string (`char` buffer, `ByteArray`, `FixedLenByteArray`). -/
abbrev Bytes := List Nat

/-- The enumeration `parquet::Type`; `UNDEFINED` stands for every value that
is not one of the eight cases of the type switch. -/
inductive PhysicalType
  | BOOLEAN
  | INT32
  | INT64
  | INT96
  | FLOAT
  | DOUBLE
  | BYTE_ARRAY
  | FIXED_LEN_BYTE_ARRAY
  | UNDEFINED
  deriving DecidableEq, Repr

/-- What is handed to the sink: the number of `SF_vstore` (physical type and
value bytes, the cast to `ST_double` kept symbolic) or the whole scratch
buffer `vstr` of `SF_sstore`. -/
inductive Payload
  | num (t : PhysicalType) (raw : Bytes)
  | str (vstr : Bytes)
  deriving DecidableEq, Repr

/-- One call of `SF_vstore` / `SF_sstore`, recorded with the loop variables
`r`, `j`, `i`, `ix` at the call and with the status the sink answered. The
arguments of the call are `col = j + 1` and `row = i + ix`. -/
structure Write where
  r : Nat
  j : Nat
  i : Int
  ix : Int
  payload : Payload
  status : Int
  deriving DecidableEq, Repr

/-- First argument of the store call: `j + 1`. -/
def Write.col (w : Write) : Int := (w.j : Int) + 1

/-- Second argument of the store call: `i + ix`. -/
def Write.row (w : Write) : Int := w.i + w.ix

/-- Calls made to the collaborators: `ReadBatch(1, ...)` of the reader of
physical type `t` on column `j` of row group `r` returning `v`, and a store. -/
inductive Event
  | pull (t : PhysicalType) (r j : Nat) (v : Bytes)
  | store (w : Write)
  deriving DecidableEq, Repr

/-- Column cursor of one column in one row group: the values that the
successive `ReadBatch(1, ...)` calls return while `HasNext()`; `raises` says
that the reader throws once these values have been pulled. -/
structure ColumnChunk where
  values : List Bytes
  raises : Bool
  deriving DecidableEq, Repr

/-- The opened file as seen through the reader library. `column r jsel` is
`RowGroup(r)->Column(jsel)`, `none` when the library throws. -/
structure ParquetFile where
  num_row_groups : Nat
  physical_type : Int → PhysicalType
  type_length : Int → Int
  column : Nat → Int → Option ColumnChunk

/-- The Stata plugin interface. Retrievals return `(rc, (int64_t) z)`; the
stores return their status and may depend on the calls made so far. -/
structure Stata where
  SF_scal_use : String → Int × Int
  SF_mat_el : String → Int → Int → Int × Int
  SF_vstore : List Event → Int → Int → PhysicalType → Bytes → Int
  SF_sstore : List Event → Int → Int → Bytes → Int

/-- What the function returns, with the trace of its calls. -/
structure Result where
  rc : Int
  trace : List Event
  deriving DecidableEq, Repr

/-- The mutable variables of the decode loops. -/
structure State where
  rc : Int
  ix : Int
  ig : Int
  vstr : Bytes
  trace : List Event
  deriving DecidableEq, Repr

/-- The resolved column selection: `ncol`, `colix[]`, `vtypes[]`, `maxstrlen`. -/
structure Selection where
  ncol : Int
  colix : List Int
  vtypes : List Int
  maxstrlen : Int
  deriving DecidableEq, Repr

/-- Modelled from the spec: the macro `SPARQUET_CHAR (cvar, len)` is declared
in a header that is not among the sources; it gives a buffer of `len` bytes,
all zero. -/
def SPARQUET_CHAR (len : Int) : Bytes := List.replicate len.toNat 0

/-- The call `memcpy(dst, src, n)`, for `n` within both buffers. -/
def memcpy (dst src : Bytes) (n : Nat) : Bytes := src.take n ++ dst.drop n

/-- The call `memset(dst, c, n)`, for `n` within the buffer. -/
def memset (dst : Bytes) (c : Nat) (n : Nat) : Bytes := List.replicate n c ++ dst.drop n

/-- Lines 80-83: the loop over `__sparquet_colix`, for the indices `j` listed. -/
def readColix (env : Stata) : List Nat → Except Int (List Int)
  | [] => .ok []
  | j :: js =>
    let p := env.SF_mat_el "__sparquet_colix" 1 ((j : Int) + 1)
    if p.1 ≠ 0 then .error p.1
    else
      match readColix env js with
      | .error rc => .error rc
      | .ok cs => .ok ((p.2 - 1) :: cs)

/-- Lines 88-92: the loop over `__sparquet_coltypes`, which also raises
`maxstrlen`. -/
def readColtypes (env : Stata) : List Nat → Int → Except Int (List Int × Int)
  | [], maxstrlen => .ok ([], maxstrlen)
  | j :: js, maxstrlen =>
    let p := env.SF_mat_el "__sparquet_coltypes" 1 ((j : Int) + 1)
    if p.1 ≠ 0 then .error p.1
    else
      match readColtypes env js (if p.2 > maxstrlen then p.2 else maxstrlen) with
      | .error rc => .error rc
      | .ok (vs, mx) => .ok (p.2 :: vs, mx)

/-- Lines 64-98: resolution of the column selection. `.error rc` is
`goto exit` with that `rc`. -/
def resolve (env : Stata) : Except Int Selection :=
  let p := env.SF_scal_use "__sparquet_ncol"
  let any_rc : Int := if p.1 ≠ 0 then p.1 else 0
  let ncol : Int := if p.1 ≠ 0 then 1 else p.2
  match readColix env (List.range ncol.toNat) with
  | .error rc => .error rc
  | .ok colix =>
    match readColtypes env (List.range ncol.toNat) 1 with
    | .error rc => .error rc
    | .ok (vtypes, maxstrlen) =>
      if any_rc ≠ 0 then .error any_rc
      else .ok ⟨ncol, colix, vtypes, maxstrlen⟩

/-- The loop `while (reader->HasNext()) { ReadBatch(1, ..., &v, ...); i++; body }`
over the values left in the cursor. `.error` is leaving the function:
`goto exit` from the body, or `return(-1)` from the `catch` when the reader
throws. -/
def whileHasNext (body : Bytes → Int → State → Except Result State) (raises : Bool) :
    List Bytes → Int → State → Except Result (Int × State)
  | [], i, st => if raises then .error ⟨-1, st.trace⟩ else .ok (i, st)
  | v :: vs, i, st =>
    match body v (i + 1) st with
    | .error res => .error res
    | .ok st' => whileHasNext body raises vs (i + 1) st'

/-- Body of the loops of BOOLEAN, INT32, INT64, FLOAT and DOUBLE (lines
125-130, 136-141, 147-152, 162-167, 173-178), which differ in the reader
type only. -/
def vstoreBody (env : Stata) (t : PhysicalType) (r j : Nat) (v : Bytes) (i : Int)
    (st : State) : Except Result State :=
  let pulled := st.trace ++ [Event.pull t r j v]
  let rc := env.SF_vstore pulled ((j : Int) + 1) (i + st.ix) t v
  let tr := pulled ++ [Event.store ⟨r, j, i, st.ix, .num t v, rc⟩]
  if rc ≠ 0 then .error ⟨rc, tr⟩
  else .ok { st with rc := rc, trace := tr }

/-- Body of the BYTE_ARRAY loop, lines 184-196. -/
def byteArrayBody (env : Stata) (sel : Selection) (r j : Nat) (v : Bytes) (i : Int)
    (st : State) : Except Result State :=
  let pulled := st.trace ++ [Event.pull .BYTE_ARRAY r j v]
  if (v.length : Int) > sel.vtypes.getD j 0 then .error ⟨17103, pulled⟩
  else
    let vstr := memcpy st.vstr v v.length
    let rc := env.SF_sstore pulled ((j : Int) + 1) (i + st.ix) vstr
    let tr := pulled ++ [Event.store ⟨r, j, i, st.ix, .str vstr, rc⟩]
    if rc ≠ 0 then .error ⟨rc, tr⟩
    else .ok { st with rc := rc, vstr := memset vstr 0 sel.maxstrlen.toNat, trace := tr }

/-- Body of the FIXED_LEN_BYTE_ARRAY loop, lines 208-214; `tl` is
`descr->type_length()`. -/
def fixedLenBody (env : Stata) (sel : Selection) (tl : Int) (r j : Nat) (v : Bytes)
    (i : Int) (st : State) : Except Result State :=
  let pulled := st.trace ++ [Event.pull .FIXED_LEN_BYTE_ARRAY r j v]
  let vstr := memcpy st.vstr v tl.toNat
  let rc := env.SF_sstore pulled ((j : Int) + 1) (i + st.ix) vstr
  let tr := pulled ++ [Event.store ⟨r, j, i, st.ix, .str vstr, rc⟩]
  if rc ≠ 0 then .error ⟨rc, tr⟩
  else .ok { st with rc := rc, vstr := memset vstr 0 sel.maxstrlen.toNat, trace := tr }

/-- Line 221 after a loop that ran to its end: `ig = i > ig ? i : ig`. -/
def endColumn (p : Int × State) : State :=
  { p.2 with ig := if p.1 > p.2.ig then p.1 else p.2.ig }

/-- Lines 117-221: one pass of the loop over `j`, for column `j` of row
group `r`. -/
def readColumn (env : Stata) (file : ParquetFile) (sel : Selection) (r j : Nat)
    (st : State) : Except Result State :=
  let jsel := sel.colix.getD j 0
  match file.column r jsel with
  | none => .error ⟨-1, st.trace⟩
  | some chunk =>
    match file.physical_type jsel with
    | .BOOLEAN | .INT32 | .INT64 | .FLOAT | .DOUBLE =>
      match whileHasNext (vstoreBody env (file.physical_type jsel) r j) chunk.raises
          chunk.values 0 st with
      | .error res => .error res
      | .ok p => .ok (endColumn p)
    | .INT96 => .error ⟨17101, st.trace⟩
    | .BYTE_ARRAY =>
      match whileHasNext (byteArrayBody env sel r j) chunk.raises chunk.values 0 st with
      | .error res => .error res
      | .ok p => .ok (endColumn p)
    | .FIXED_LEN_BYTE_ARRAY =>
      if file.type_length jsel > sel.vtypes.getD j 0 then .error ⟨17103, st.trace⟩
      else
        match whileHasNext (fixedLenBody env sel (file.type_length jsel) r j) chunk.raises
            chunk.values 0 st with
        | .error res => .error res
        -- no `break` after the loop: control runs on into `default`
        | .ok p => .error ⟨17100, p.2.trace⟩
    | .UNDEFINED => .error ⟨17100, st.trace⟩

/-- Lines 116-222: the loop `for (j = 0; j < ncol; j++)`, for the indices
listed. -/
def colsLoop (env : Stata) (file : ParquetFile) (sel : Selection) (r : Nat) :
    List Nat → State → Except Result State
  | [], st => .ok st
  | j :: js, st =>
    match readColumn env file sel r j st with
    | .error res => .error res
    | .ok st' => colsLoop env file sel r js st'

/-- Lines 111-223: the loop `for (r = 0; r < nrow_groups; ++r)`, for the row
groups listed. -/
def groupsLoop (env : Stata) (file : ParquetFile) (sel : Selection) :
    List Nat → State → Except Result State
  | [], st => .ok st
  | r :: rs, st =>
    match colsLoop env file sel r (List.range sel.ncol.toNat)
        { st with ix := st.ix + st.ig } with
    | .error res => .error res
    | .ok st' => groupsLoop env file sel rs st'

/-- The function `sf_ll_read_varlist`. The argument `file` is the outcome of
`ParquetFileReader::OpenFile(fname, false)`, `none` when it throws. After a
resolution without error every retrieval has answered 0, so `rc` is 0 when
the loop over the row groups starts. -/
def sf_ll_read_varlist (env : Stata) (file : Option ParquetFile) : Result :=
  match file with
  | none => ⟨-1, []⟩
  | some f =>
    match resolve env with
    | .error rc => ⟨rc, []⟩
    | .ok sel =>
      match groupsLoop env f sel (List.range f.num_row_groups)
          ⟨0, 0, 0, SPARQUET_CHAR sel.maxstrlen, []⟩ with
      | .error res => res
      | .ok st => ⟨st.rc, st.trace⟩

/-- The stores of a trace, in order. -/
def stores : List Event → List Write
  | [] => []
  | .pull _ _ _ _ :: es => stores es
  | .store w :: es => w :: stores es


/-! ## Auxiliary notions used in the statements -/

/-- The five physical types stored with `SF_vstore`. -/
def PhysicalType.isNumeric : PhysicalType → Bool
  | .BOOLEAN | .INT32 | .INT64 | .FLOAT | .DOUBLE => true
  | _ => false

/-- The first `n` bytes of `v` followed by zero bytes up to the size
`maxstrlen` of the scratch buffer. -/
def handed (sel : Selection) (v : Bytes) (n : Nat) : Bytes :=
  v.take n ++ List.replicate (sel.maxstrlen.toNat - n) 0

/-- The number of bytes copied into the scratch buffer for a value `v` of
column `j`: its length for BYTE_ARRAY, the schema width otherwise. -/
def copyLen (file : ParquetFile) (sel : Selection) (t : PhysicalType) (j : Nat)
    (v : Bytes) : Nat :=
  if t = .BYTE_ARRAY then v.length else (file.type_length (sel.colix.getD j 0)).toNat

/-- A pull of `v` and the store `w` that follows it belong together: same
row group and column, the capacity check of the type passed, and the payload
is the one built from `v`. -/
def PairOK (file : ParquetFile) (sel : Selection) (t : PhysicalType) (r j : Nat)
    (v : Bytes) (w : Write) : Prop :=
  w.r = r ∧ w.j = j ∧
  ((t.isNumeric = true ∧ w.payload = .num t v) ∨
   (t = .BYTE_ARRAY ∧ (v.length : Int) ≤ sel.vtypes.getD j 0 ∧
      w.payload = .str (handed sel v (copyLen file sel t j v))) ∨
   (t = .FIXED_LEN_BYTE_ARRAY ∧
      file.type_length (sel.colix.getD j 0) ≤ sel.vtypes.getD j 0 ∧
      w.payload = .str (handed sel v (copyLen file sel t j v))))

/-- Traces of pulls each followed by its accepted store. -/
inductive Run (file : ParquetFile) (sel : Selection) : List Event → Prop
  | nil : Run file sel []
  | cons {t r j v w tr} : PairOK file sel t r j v w → w.status = 0 → Run file sel tr →
      Run file sel (.pull t r j v :: .store w :: tr)

/-- How a trace may end, with the code returned: nothing more, a pulled
byte array over capacity, or a store that the sink refused. -/
inductive Ending (file : ParquetFile) (sel : Selection) (rc : Int) : List Event → Prop
  | quiet : Ending file sel rc []
  | violation {r j v} : sel.vtypes.getD j 0 < (v.length : Int) → rc = 17103 →
      Ending file sel rc [.pull .BYTE_ARRAY r j v]
  | refused {t r j v w} : PairOK file sel t r j v w → w.status ≠ 0 → rc = w.status →
      Ending file sel rc [.pull t r j v, .store w]

/-- Shape of the trace of a whole read. -/
def Final (file : ParquetFile) (sel : Selection) (res : Result) : Prop :=
  ∃ a b, res.trace = a ++ b ∧ Run file sel a ∧ Ending file sel res.rc b

/-- The invariant of the decode loops for the shape of the trace: pulls
each followed by an accepted store, and a scratch buffer that is all zero. -/
def Good (file : ParquetFile) (sel : Selection) (st : State) : Prop :=
  Run file sel st.trace ∧ st.vstr = List.replicate sel.maxstrlen.toNat 0

/-- The status that the sink gives to the store `w` after the calls `hist`. -/
def sinkAnswer (env : Stata) (hist : List Event) (w : Write) : Int :=
  match w.payload with
  | .num t raw => env.SF_vstore hist w.col w.row t raw
  | .str vstr => env.SF_sstore hist w.col w.row vstr

/-- Every store of the trace records the status that the sink answered to
that call, made after the calls before it. -/
def Answered (env : Stata) (tr : List Event) : Prop :=
  ∀ pre w post, tr = pre ++ .store w :: post → w.status = sinkAnswer env pre w

/-! ## Sessions and files given by tables -/

/-- A Stata session given by tables: the answer of `SF_scal_use`, the
answers for the entries of `__sparquet_colix` and of `__sparquet_coltypes`
(entry `j` of a list is column `j + 1` of the matrix, a missing entry
answers 198), and a sink whose status is a function of the number of stores
made before. -/
def tableStata (scal : Int × Int) (colix coltypes : List (Int × Int)) (sink : Nat → Int) :
    Stata where
  SF_scal_use := fun _ => scal
  SF_mat_el := fun name _ j =>
    if name = "__sparquet_colix" then colix.getD (j - 1).toNat (198, 0)
    else coltypes.getD (j - 1).toNat (198, 0)
  SF_vstore := fun hist _ _ _ _ => sink (stores hist).length
  SF_sstore := fun hist _ _ _ => sink (stores hist).length

/-- A file given by tables: the physical types of its columns, the schema
width of its fixed-length columns, and for each row group the values of each
column. No call of the reader throws for the columns of the file. -/
def tableFile (types : List PhysicalType) (width : Int) (groups : List (List (List Bytes))) :
    ParquetFile where
  num_row_groups := groups.length
  physical_type := fun jsel => if 0 ≤ jsel then types.getD jsel.toNat .UNDEFINED else .UNDEFINED
  type_length := fun _ => width
  column := fun r jsel =>
    if 0 ≤ jsel ∧ jsel < types.length then
      some ⟨(groups.getD r []).getD jsel.toNat [], false⟩
    else none

/-- The file `file` read through a reader that throws when the cursor of the
file column `missing` is requested. -/
def withoutCursor (file : ParquetFile) (missing : Int) : ParquetFile where
  num_row_groups := file.num_row_groups
  physical_type := file.physical_type
  type_length := file.type_length
  column := fun r jsel => if jsel = missing then none else file.column r jsel

/-! ## Positions of the stores -/

/-- Stores of different row groups are at different rows, in the order of
the groups. -/
def Sep (tr : List Event) : Prop :=
  ∀ w w', Event.store w ∈ tr → Event.store w' ∈ tr → w.r < w'.r → w.row < w'.row

/-- Invariant of the decode of row group `r` with base offset `X`: a store of
an earlier group is at a row up to `X`; a store of group `r` is for a column
before `jb`, was made with `ix = X` and has `1 ≤ i ≤ hi`. -/
def Pos (r jb : Nat) (X hi : Int) (tr : List Event) : Prop :=
  ∀ w, Event.store w ∈ tr →
    (w.r < r ∧ w.row ≤ X) ∨ (w.r = r ∧ w.j < jb ∧ w.ix = X ∧ 1 ≤ w.i ∧ w.i ≤ hi)

/-- Every store is of a row group before `r`, or of row group `r` and a
column before `jb`. -/
def Below (r jb : Nat) (tr : List Event) : Prop :=
  ∀ w, Event.store w ∈ tr → w.r < r ∨ (w.r = r ∧ w.j < jb)

/-- The state on entry to column `jb` of row group `r`. -/
def ColEntry (r jb : Nat) (st : State) : Prop :=
  0 ≤ st.ig ∧ Pos r jb st.ix st.ig st.trace ∧ Sep st.trace

/-- The state on entry to a row group, before `ix += ig`: the stores made so
far are of row groups before `rb`, at rows up to `ix + ig`. -/
def GroupEntry (rb : Nat) (st : State) : Prop :=
  0 ≤ st.ig ∧ Sep st.trace ∧
    ∀ w, Event.store w ∈ st.trace → w.r < rb ∧ w.row ≤ st.ix + st.ig

/-! ## Resolution of the selection, as the retrievals answer -/

/-- The codes answered for the entries `1 .. n` of row 1 of the matrix. -/
def entryCodes (env : Stata) (name : String) (n : Nat) : List Int :=
  (List.range n).map fun j => (env.SF_mat_el name 1 ((j : Int) + 1)).1

/-- The first code of the list that is not 0. -/
def firstFailure : List Int → Option Int
  | [] => none
  | c :: cs => if c ≠ 0 then some c else firstFailure cs

/-- The number of entries of each matrix that the resolution asks for: the
column count, or 1 when the count could not be retrieved. -/
def entriesAsked (env : Stata) : Nat :=
  if (env.SF_scal_use "__sparquet_ncol").1 ≠ 0 then 1
  else (env.SF_scal_use "__sparquet_ncol").2.toNat

/-- The code of a failed resolution: that of the first index entry that
fails, else that of the first capacity entry that fails, else that of the
failed column count. -/
def resolutionFailure (env : Stata) : Option Int :=
  match firstFailure (entryCodes env "__sparquet_colix" (entriesAsked env)) with
  | some c => some c
  | none =>
    match firstFailure (entryCodes env "__sparquet_coltypes" (entriesAsked env)) with
    | some c => some c
    | none =>
      if (env.SF_scal_use "__sparquet_ncol").1 ≠ 0 then
        some (env.SF_scal_use "__sparquet_ncol").1
      else none

/-! ## Reads in which no collaborator fails -/

/-- The sink accepts every store. -/
def Accepting (env : Stata) : Prop :=
  (∀ hist col row t v, env.SF_vstore hist col row t v = 0) ∧
  (∀ hist col row vstr, env.SF_sstore hist col row vstr = 0)

/-- The sink accepts every store to the sink column `j + 1` of the column
selected at position `j`. -/
def AcceptsColumn (env : Stata) (j : Nat) : Prop :=
  (∀ hist row t v, env.SF_vstore hist ((j : Int) + 1) row t v = 0) ∧
  (∀ hist row vstr, env.SF_sstore hist ((j : Int) + 1) row vstr = 0)

/-- The physical type of the column selected at position `j`. -/
def typeOf (file : ParquetFile) (sel : Selection) (j : Nat) : PhysicalType :=
  file.physical_type (sel.colix.getD j 0)

/-- Column `j` of row group `r` can be pulled to its end: its type is one of
the five numeric types or BYTE_ARRAY, the reader yields its cursor, and the
cursor does not throw. -/
def readable (file : ParquetFile) (sel : Selection) (r j : Nat) : Bool :=
  ((typeOf file sel j).isNumeric || decide (typeOf file sel j = .BYTE_ARRAY)) &&
  (match file.column r (sel.colix.getD j 0) with
   | some chunk => !chunk.raises
   | none => false)

/-- A value of the file with its place: row group `r` and position `j` in
the selection. -/
structure Cell where
  r : Nat
  j : Nat
  v : Bytes
  deriving DecidableEq, Repr

/-- The values of column `j` in row group `r`. -/
def chunkValues (file : ParquetFile) (sel : Selection) (r j : Nat) : List Bytes :=
  match file.column r (sel.colix.getD j 0) with
  | some chunk => chunk.values
  | none => []

/-- The values of column `j` in row group `r`, in storage order. -/
def columnCells (file : ParquetFile) (sel : Selection) (r j : Nat) : List Cell :=
  (chunkValues file sel r j).map fun v => ⟨r, j, v⟩

/-- The values of the selected columns in row group `r`, column by column. -/
def groupCells (file : ParquetFile) (sel : Selection) (r : Nat) : List Cell :=
  (List.range sel.ncol.toNat).flatMap (columnCells file sel r)

/-- All values of the selected columns in the order in which the read meets
them: row group by row group, column by column. -/
def cells (file : ParquetFile) (sel : Selection) : List Cell :=
  (List.range file.num_row_groups).flatMap (groupCells file sel)

/-- The capacity check: a byte array is no longer than the declared capacity
of its column. -/
def fits (file : ParquetFile) (sel : Selection) (c : Cell) : Bool :=
  !decide (typeOf file sel c.j = .BYTE_ARRAY) ||
    decide ((c.v.length : Int) ≤ sel.vtypes.getD c.j 0)

/-- What the sink is to receive for a value: the column `j + 1` and the
value, for a byte array followed by zero bytes up to `maxstrlen`. -/
def sinkView (file : ParquetFile) (sel : Selection) (c : Cell) : Int × Payload :=
  ((c.j : Int) + 1,
    if typeOf file sel c.j = .BYTE_ARRAY then
      .str (c.v ++ List.replicate (sel.maxstrlen.toNat - c.v.length) 0)
    else .num (typeOf file sel c.j) c.v)

/-- What the sink has received: column and payload of each store, in order. -/
def seen (tr : List Event) : List (Int × Payload) :=
  (stores tr).map fun w => (w.col, w.payload)

/-- The state between two values of a read in which nothing has failed. -/
def Clean (sel : Selection) (st : State) : Prop :=
  st.rc = 0 ∧ st.vstr = List.replicate sel.maxstrlen.toNat 0

/-- Outcome of a part of the read that started with trace `base` and meets
the values `cs`, when no collaborator fails: it runs to its end if all the
values pass the capacity check, and the sink has received them all; it
leaves with 17103 otherwise, and the sink has received the values before the
first one that does not pass. -/
def Outcome {α : Type} (pa : α → State) (file : ParquetFile) (sel : Selection)
    (base : List Event) (cs : List Cell) : Except Result α → Prop
  | .ok a => cs.all (fits file sel) = true ∧ Clean sel (pa a) ∧
      seen (pa a).trace = seen base ++ cs.map (sinkView file sel)
  | .error res => cs.all (fits file sel) = false ∧ res.rc = 17103 ∧
      seen res.trace = seen base ++ (cs.takeWhile (fits file sel)).map (sinkView file sel)

/-- Sequencing of two parts of the read: the second runs if the first has
not left the function. -/
def andThen {α β : Type} (x : Except Result α) (k : α → Except Result β) : Except Result β :=
  match x with
  | .error res => .error res
  | .ok a => k a

/-! ## The resolved selection -/

theorem readColtypes_bound (env : Stata) :
    ∀ (js : List Nat) (m0 : Int) (vs : List Int) (mx : Int),
      readColtypes env js m0 = .ok (vs, mx) → m0 ≤ mx ∧ ∀ v ∈ vs, v ≤ mx := by
  intro js
  induction js with
  | nil =>
    intro m0 vs mx h
    simp [readColtypes] at h
    obtain ⟨h1, h2⟩ := h
    subst h1; subst h2
    simp
  | cons j js ih =>
    intro m0 vs mx h
    simp only [readColtypes] at h
    split at h
    · cases h
    · split at h
      · cases h
      · rename_i vs' mx' heq
        simp at h
        obtain ⟨h1, h2⟩ := h
        subst h1; subst h2
        have := ih _ _ _ heq
        obtain ⟨hle, hall⟩ := this
        constructor
        · split at hle <;> omega
        · intro v hv
          simp at hv
          rcases hv with hv | hv
          · subst hv
            split at hle <;> omega
          · exact hall v hv

theorem getD_le_of_forall (vs : List Int) (mx : Int) (h0 : 0 ≤ mx) (h : ∀ v ∈ vs, v ≤ mx) :
    ∀ j, vs.getD j 0 ≤ mx := by
  induction vs with
  | nil => intro j; simpa using h0
  | cons a vs ih =>
    intro j
    cases j with
    | zero => simpa using h a (by simp)
    | succ k =>
      simpa using ih (fun v hv => h v (by simp [hv])) k

theorem resolve_maxstrlen {env : Stata} {sel : Selection} (h : resolve env = .ok sel) :
    1 ≤ sel.maxstrlen ∧ ∀ j, sel.vtypes.getD j 0 ≤ sel.maxstrlen := by
  unfold resolve at h
  simp only at h
  split at h
  · cases h
  · split at h
    · cases h
    · rename_i vtypes mx heq
      split at h
      · cases h
      · simp at h
        subst h
        have hb := readColtypes_bound env _ _ _ _ heq
        have h1 : (1 : Int) ≤ mx := hb.1
        have h0 : (0 : Int) ≤ mx := by omega
        exact ⟨h1, getD_le_of_forall _ mx h0 hb.2⟩

/-! ## A rule for the pull loop -/

theorem whileHasNext_rule {body : Bytes → Int → State → Except Result State} {raises : Bool}
    (P : Int → State → Prop) (Q : Result → Prop)
    (hok : ∀ v i st st', P i st → body v (i + 1) st = .ok st' → P (i + 1) st')
    (herr : ∀ v i st res, P i st → body v (i + 1) st = .error res → Q res)
    (hraise : ∀ i st, P i st → Q ⟨-1, st.trace⟩) :
    ∀ (vs : List Bytes) (i : Int) (st : State), P i st →
      (∀ p, whileHasNext body raises vs i st = .ok p → P p.1 p.2) ∧
      (∀ res, whileHasNext body raises vs i st = .error res → Q res) := by
  intro vs
  induction vs with
  | nil =>
    intro i st hP
    constructor
    · intro p h
      simp only [whileHasNext] at h
      split at h
      · cases h
      · cases h; exact hP
    · intro res h
      simp only [whileHasNext] at h
      split at h
      · cases h; exact hraise i st hP
      · cases h
  | cons v vs ih =>
    intro i st hP
    constructor
    · intro p h
      simp only [whileHasNext] at h
      split at h
      · cases h
      · rename_i st' heq
        exact (ih (i + 1) st' (hok v i st st' hP heq)).1 p h
    · intro res h
      simp only [whileHasNext] at h
      split at h
      · rename_i res' heq
        cases h
        exact herr v i st _ hP heq
      · rename_i st' heq
        exact (ih (i + 1) st' (hok v i st st' hP heq)).2 res h

/-! ## Shape of the trace -/

theorem Run.append {file : ParquetFile} {sel : Selection} {a b : List Event}
    (ha : Run file sel a) (hb : Run file sel b) : Run file sel (a ++ b) := by
  induction ha with
  | nil => simpa using hb
  | cons hp hs _ ih => simpa using Run.cons hp hs ih

theorem Run.snoc {file : ParquetFile} {sel : Selection} {a : List Event} {t : PhysicalType}
    {r j : Nat} {v : Bytes} {w : Write} (ha : Run file sel a) (hp : PairOK file sel t r j v w)
    (hs : w.status = 0) : Run file sel (a ++ [.pull t r j v] ++ [.store w]) := by
  simpa using ha.append (Run.cons hp hs Run.nil)

theorem Final.of_run {file : ParquetFile} {sel : Selection} {tr : List Event}
    (h : Run file sel tr) (rc : Int) : Final file sel ⟨rc, tr⟩ :=
  ⟨tr, [], by simp, h, .quiet⟩

theorem memcpy_zero (sel : Selection) (v : Bytes) (n : Nat) :
    memcpy (List.replicate sel.maxstrlen.toNat 0) v n = handed sel v n := by
  simp [memcpy, handed]

theorem memset_handed (sel : Selection) (v : Bytes) (n : Nat) (h : n ≤ sel.maxstrlen.toNat) :
    memset (handed sel v n) 0 sel.maxstrlen.toNat = List.replicate sel.maxstrlen.toNat 0 := by
  have hl : (handed sel v n).length ≤ sel.maxstrlen.toNat := by
    simp only [handed, List.length_append, List.length_take, List.length_replicate]
    omega
  simp [memset, List.drop_eq_nil_of_le hl]

theorem vstoreBody_final {env : Stata} {file : ParquetFile} {sel : Selection}
    {t : PhysicalType} {r j : Nat} {v : Bytes} {i : Int} {st : State}
    (ht : t.isNumeric = true) (hrun : Run file sel st.trace) :
    (∀ st', vstoreBody env t r j v i st = .ok st' →
        Run file sel st'.trace ∧ st'.vstr = st.vstr) ∧
    (∀ res, vstoreBody env t r j v i st = .error res → Final file sel res) := by
  have hp : ∀ s, PairOK file sel t r j v ⟨r, j, i, st.ix, .num t v, s⟩ :=
    fun s => ⟨rfl, rfl, Or.inl ⟨ht, rfl⟩⟩
  constructor
  · intro st' h
    simp only [vstoreBody] at h
    split at h
    · cases h
    · rename_i hrc
      cases h
      exact ⟨hrun.snoc (hp _) (by simpa using hrc), rfl⟩
  · intro res h
    simp only [vstoreBody] at h
    split at h
    · rename_i hrc
      cases h
      exact ⟨st.trace, _, by simp, hrun, .refused (hp _) hrc rfl⟩
    · cases h

theorem byteArrayBody_final {env : Stata} {file : ParquetFile} {sel : Selection}
    {r j : Nat} {v : Bytes} {i : Int} {st : State}
    (hM : ∀ j, sel.vtypes.getD j 0 ≤ sel.maxstrlen)
    (hrun : Run file sel st.trace) (hz : st.vstr = List.replicate sel.maxstrlen.toNat 0) :
    (∀ st', byteArrayBody env sel r j v i st = .ok st' →
        Run file sel st'.trace ∧ st'.vstr = List.replicate sel.maxstrlen.toNat 0) ∧
    (∀ res, byteArrayBody env sel r j v i st = .error res → Final file sel res) := by
  have hp : (v.length : Int) ≤ sel.vtypes.getD j 0 → ∀ s,
      PairOK file sel .BYTE_ARRAY r j v ⟨r, j, i, st.ix, .str (memcpy st.vstr v v.length), s⟩ := by
    intro hfit s
    refine ⟨rfl, rfl, Or.inr (Or.inl ⟨rfl, hfit, ?_⟩)⟩
    simp [hz, memcpy_zero, copyLen]
  constructor
  · intro st' h
    simp only [byteArrayBody] at h
    split at h
    · cases h
    · rename_i hfit
      split at h
      · cases h
      · rename_i hrc
        cases h
        have hfit' : (v.length : Int) ≤ sel.vtypes.getD j 0 := by omega
        refine ⟨hrun.snoc (hp hfit' _) (by simpa using hrc), ?_⟩
        have hn : v.length ≤ sel.maxstrlen.toNat := by
          have := hM j
          omega
        simp only [hz, memcpy_zero]
        exact memset_handed sel v v.length hn
  · intro res h
    simp only [byteArrayBody] at h
    split at h
    · rename_i hbig
      cases h
      exact ⟨st.trace, _, rfl, hrun, .violation (by omega) rfl⟩
    · rename_i hfit
      split at h
      · rename_i hrc
        cases h
        have hfit' : (v.length : Int) ≤ sel.vtypes.getD j 0 := by omega
        exact ⟨st.trace, _, by simp, hrun, .refused (hp hfit' _) hrc rfl⟩
      · cases h

theorem fixedLenBody_final {env : Stata} {file : ParquetFile} {sel : Selection}
    {r j : Nat} {v : Bytes} {i : Int} {st : State}
    (hM : ∀ j, sel.vtypes.getD j 0 ≤ sel.maxstrlen)
    (hw : file.type_length (sel.colix.getD j 0) ≤ sel.vtypes.getD j 0)
    (hrun : Run file sel st.trace) (hz : st.vstr = List.replicate sel.maxstrlen.toNat 0) :
    (∀ st', fixedLenBody env sel (file.type_length (sel.colix.getD j 0)) r j v i st = .ok st' →
        Run file sel st'.trace ∧ st'.vstr = List.replicate sel.maxstrlen.toNat 0) ∧
    (∀ res, fixedLenBody env sel (file.type_length (sel.colix.getD j 0)) r j v i st
        = .error res → Final file sel res) := by
  have hp : ∀ s, PairOK file sel .FIXED_LEN_BYTE_ARRAY r j v
      ⟨r, j, i, st.ix,
        .str (memcpy st.vstr v (file.type_length (sel.colix.getD j 0)).toNat), s⟩ := by
    intro s
    refine ⟨rfl, rfl, Or.inr (Or.inr ⟨rfl, hw, ?_⟩)⟩
    simp [hz, memcpy_zero, copyLen]
  constructor
  · intro st' h
    simp only [fixedLenBody] at h
    split at h
    · cases h
    · rename_i hrc
      cases h
      refine ⟨hrun.snoc (hp _) (by simpa using hrc), ?_⟩
      have hn : (file.type_length (sel.colix.getD j 0)).toNat ≤ sel.maxstrlen.toNat := by
        have := hM j
        omega
      simp only [hz, memcpy_zero]
      exact memset_handed sel v _ hn
  · intro res h
    simp only [fixedLenBody] at h
    split at h
    · rename_i hrc
      cases h
      exact ⟨st.trace, _, by simp, hrun, .refused (hp _) hrc rfl⟩
    · cases h

/-! ## A rule for one column -/

theorem afterLoop_rule (x : Except Result (Int × State)) (P : Int → State → Prop)
    (P' : State → Prop) (Q : Result → Prop)
    (h1 : ∀ p, x = .ok p → P p.1 p.2) (h2 : ∀ res, x = .error res → Q res)
    (h3 : ∀ i st, P i st → P' (endColumn (i, st))) :
    (∀ st', (match x with
        | .error res => Except.error res
        | .ok p => Except.ok (endColumn p)) = .ok st' → P' st') ∧
    (∀ res, (match x with
        | .error res => Except.error res
        | .ok p => (Except.ok (endColumn p) : Except Result State)) = .error res → Q res) := by
  cases x with
  | error e =>
    refine ⟨fun st' h => ?_, fun res h => ?_⟩
    · cases h
    · cases h; exact h2 _ rfl
  | ok p =>
    refine ⟨fun st' h => ?_, fun res h => ?_⟩
    · cases h; exact h3 _ _ (h1 _ rfl)
    · cases h

/-- Rule for `readColumn`: an invariant `P` of the pull loop that holds on
entry with `i = 0`, is kept by the three loop bodies, and a property `Q` of
the results that holds at every exit. -/
theorem readColumn_rule {env : Stata} {file : ParquetFile} {sel : Selection} {r j : Nat}
    (P : Int → State → Prop) (P' : State → Prop) (Q : Result → Prop)
    (hexit : ∀ i st, P i st → P' (endColumn (i, st)))
    (hquiet : ∀ i st rc, rc ≠ 0 → P i st → Q ⟨rc, st.trace⟩)
    (hnum : ∀ t, t.isNumeric = true → ∀ v i st, P i st →
      (∀ st', vstoreBody env t r j v (i + 1) st = .ok st' → P (i + 1) st') ∧
      (∀ res, vstoreBody env t r j v (i + 1) st = .error res → Q res))
    (hba : ∀ v i st, P i st →
      (∀ st', byteArrayBody env sel r j v (i + 1) st = .ok st' → P (i + 1) st') ∧
      (∀ res, byteArrayBody env sel r j v (i + 1) st = .error res → Q res))
    (hfl : file.type_length (sel.colix.getD j 0) ≤ sel.vtypes.getD j 0 → ∀ v i st, P i st →
      (∀ st', fixedLenBody env sel (file.type_length (sel.colix.getD j 0)) r j v (i + 1) st
          = .ok st' → P (i + 1) st') ∧
      (∀ res, fixedLenBody env sel (file.type_length (sel.colix.getD j 0)) r j v (i + 1) st
          = .error res → Q res))
    (st : State) (h0 : P 0 st) :
    (∀ st', readColumn env file sel r j st = .ok st' → P' st') ∧
    (∀ res, readColumn env file sel r j st = .error res → Q res) := by
  have hq : ∀ rc, rc ≠ 0 → Q ⟨rc, st.trace⟩ := fun rc hrc => hquiet 0 st rc hrc h0
  have hstop : ∀ rc : Int, rc ≠ 0 →
      (∀ st', (Except.error ⟨rc, st.trace⟩ : Except Result State) = .ok st' → P' st') ∧
      (∀ res, (Except.error ⟨rc, st.trace⟩ : Except Result State) = .error res → Q res) := by
    intro rc hrc
    refine ⟨fun st' h => ?_, fun res h => ?_⟩
    · cases h
    · cases h; exact hq rc hrc
  have hloop : ∀ (body : Bytes → Int → State → Except Result State) (raises : Bool)
      (vs : List Bytes),
      (∀ v i st, P i st →
        (∀ st', body v (i + 1) st = .ok st' → P (i + 1) st') ∧
        (∀ res, body v (i + 1) st = .error res → Q res)) →
      (∀ p, whileHasNext body raises vs 0 st = .ok p → P p.1 p.2) ∧
      (∀ res, whileHasNext body raises vs 0 st = .error res → Q res) := by
    intro body raises vs hb
    exact whileHasNext_rule P Q (fun v i st st' hP h => (hb v i st hP).1 st' h)
      (fun v i st res hP h => (hb v i st hP).2 res h)
      (fun i st hP => hquiet i st (-1) (by decide) hP) vs 0 st h0
  unfold readColumn
  simp only
  cases hc : file.column r (sel.colix.getD j 0) with
  | none => exact hstop _ (by decide)
  | some chunk =>
    simp only
    cases ht : file.physical_type (sel.colix.getD j 0) <;> simp only
    case INT96 => exact hstop _ (by decide)
    case UNDEFINED => exact hstop _ (by decide)
    case BYTE_ARRAY =>
      have hl := hloop (byteArrayBody env sel r j) chunk.raises chunk.values hba
      exact afterLoop_rule _ P P' Q hl.1 hl.2 hexit
    case FIXED_LEN_BYTE_ARRAY =>
      split
      · exact hstop _ (by decide)
      · rename_i hfit
        have hfit' : file.type_length (sel.colix.getD j 0) ≤ sel.vtypes.getD j 0 := by omega
        have hl := hloop (fixedLenBody env sel (file.type_length (sel.colix.getD j 0)) r j)
          chunk.raises chunk.values (hfl hfit')
        cases hw : whileHasNext
            (fixedLenBody env sel (file.type_length (sel.colix.getD j 0)) r j)
            chunk.raises chunk.values 0 st with
        | error res =>
          refine ⟨fun st' h => ?_, fun res' h => ?_⟩
          · cases h
          · cases h; exact hl.2 _ hw
        | ok p =>
          refine ⟨fun st' h => ?_, fun res' h => ?_⟩
          · cases h
          · cases h; exact hquiet _ _ 17100 (by decide) (hl.1 _ hw)
    all_goals
      exact afterLoop_rule _ P P' Q
        (hloop (vstoreBody env _ r j) chunk.raises chunk.values (hnum _ (by rfl))).1
        (hloop (vstoreBody env _ r j) chunk.raises chunk.values (hnum _ (by rfl))).2 hexit

/-! ## A rule for the whole read, for invariants that do not look at `ix`, `ig` -/

theorem colsLoop_rule {env : Stata} {file : ParquetFile} {sel : Selection} {r : Nat}
    (G : State → Prop) (Q : Result → Prop)
    (hcol : ∀ j st, G st →
      (∀ st', readColumn env file sel r j st = .ok st' → G st') ∧
      (∀ res, readColumn env file sel r j st = .error res → Q res)) :
    ∀ (js : List Nat) (st : State), G st →
      (∀ st', colsLoop env file sel r js st = .ok st' → G st') ∧
      (∀ res, colsLoop env file sel r js st = .error res → Q res) := by
  intro js
  induction js with
  | nil =>
    intro st hg
    refine ⟨fun st' h => ?_, fun res h => ?_⟩
    · simp only [colsLoop] at h
      cases h; exact hg
    · simp only [colsLoop] at h
      cases h
  | cons j js ih =>
    intro st hg
    have hc := hcol j st hg
    refine ⟨fun st' h => ?_, fun res h => ?_⟩
    · simp only [colsLoop] at h
      split at h
      · cases h
      · rename_i st1 heq
        exact (ih st1 (hc.1 _ heq)).1 _ h
    · simp only [colsLoop] at h
      split at h
      · rename_i res1 heq
        cases h
        exact hc.2 _ heq
      · rename_i st1 heq
        exact (ih st1 (hc.1 _ heq)).2 _ h

theorem groupsLoop_rule {env : Stata} {file : ParquetFile} {sel : Selection}
    (G : State → Prop) (Q : Result → Prop)
    (hix : ∀ st ix ig, G st → G { st with ix := ix, ig := ig })
    (hcol : ∀ r j st, G st →
      (∀ st', readColumn env file sel r j st = .ok st' → G st') ∧
      (∀ res, readColumn env file sel r j st = .error res → Q res)) :
    ∀ (rs : List Nat) (st : State), G st →
      (∀ st', groupsLoop env file sel rs st = .ok st' → G st') ∧
      (∀ res, groupsLoop env file sel rs st = .error res → Q res) := by
  intro rs
  induction rs with
  | nil =>
    intro st hg
    refine ⟨fun st' h => ?_, fun res h => ?_⟩
    · simp only [groupsLoop] at h
      cases h; exact hg
    · simp only [groupsLoop] at h
      cases h
  | cons r rs ih =>
    intro st hg
    have hc := colsLoop_rule (r := r) G Q (hcol r) (List.range sel.ncol.toNat)
      { st with ix := st.ix + st.ig } (hix st _ _ hg)
    refine ⟨fun st' h => ?_, fun res h => ?_⟩
    · simp only [groupsLoop] at h
      split at h
      · cases h
      · rename_i st1 heq
        exact (ih st1 (hc.1 _ heq)).1 _ h
    · simp only [groupsLoop] at h
      split at h
      · rename_i res1 heq
        cases h
        exact hc.2 _ heq
      · rename_i st1 heq
        exact (ih st1 (hc.1 _ heq)).2 _ h

/-- Rule for `sf_ll_read_varlist` once the file is open and the selection is
resolved: an invariant `G` of the state that does not depend on `ix` and
`ig`, kept by the three loop bodies, and a property `Q` of the results that
holds at every exit. -/
theorem read_rule {env : Stata} {f : ParquetFile} {sel : Selection}
    (G : State → Prop) (Q : Result → Prop)
    (hsel : resolve env = .ok sel)
    (hix : ∀ st ix ig, G st → G { st with ix := ix, ig := ig })
    (hquiet : ∀ st rc, G st → Q ⟨rc, st.trace⟩)
    (hnum : ∀ r j t, t.isNumeric = true → ∀ v i st, G st →
      (∀ st', vstoreBody env t r j v i st = .ok st' → G st') ∧
      (∀ res, vstoreBody env t r j v i st = .error res → Q res))
    (hba : ∀ r j v i st, G st →
      (∀ st', byteArrayBody env sel r j v i st = .ok st' → G st') ∧
      (∀ res, byteArrayBody env sel r j v i st = .error res → Q res))
    (hfl : ∀ r j, f.type_length (sel.colix.getD j 0) ≤ sel.vtypes.getD j 0 → ∀ v i st, G st →
      (∀ st', fixedLenBody env sel (f.type_length (sel.colix.getD j 0)) r j v i st
          = .ok st' → G st') ∧
      (∀ res, fixedLenBody env sel (f.type_length (sel.colix.getD j 0)) r j v i st
          = .error res → Q res))
    (h0 : G ⟨0, 0, 0, SPARQUET_CHAR sel.maxstrlen, []⟩) :
    Q (sf_ll_read_varlist env (some f)) := by
  have hcol : ∀ r j st, G st →
      (∀ st', readColumn env f sel r j st = .ok st' → G st') ∧
      (∀ res, readColumn env f sel r j st = .error res → Q res) := by
    intro r j st hg
    exact readColumn_rule (fun _ st => G st) G Q
      (fun i st hP => hix st st.ix _ hP)
      (fun _ st rc _ hP => hquiet st rc hP)
      (fun t ht v i st hP => hnum r j t ht v (i + 1) st hP)
      (fun v i st hP => hba r j v (i + 1) st hP)
      (fun hw v i st hP => hfl r j hw v (i + 1) st hP)
      st hg
  have hl := groupsLoop_rule G Q hix hcol (List.range f.num_row_groups) _ h0
  simp only [sf_ll_read_varlist, hsel]
  split
  · rename_i res heq
    exact hl.2 _ heq
  · rename_i st heq
    exact hquiet st st.rc (hl.1 _ heq)

/-! ## Shape of the trace of a read -/

/-- Every read that gets past the resolution of the selection leaves a
trace of accepted pull / store pairs with one of the three endings. -/
theorem read_final {env : Stata} {f : ParquetFile} {sel : Selection}
    (hsel : resolve env = .ok sel) : Final f sel (sf_ll_read_varlist env (some f)) := by
  have hM := (resolve_maxstrlen hsel).2
  exact read_rule (Good f sel) (Final f sel) hsel
    (fun _ _ _ hg => hg)
    (fun _ rc hg => Final.of_run hg.1 rc)
    (fun _ _ _ ht _ _ _ hP =>
      ⟨fun st' h => ⟨((vstoreBody_final ht hP.1).1 st' h).1,
          ((vstoreBody_final ht hP.1).1 st' h).2.trans hP.2⟩,
        (vstoreBody_final ht hP.1).2⟩)
    (fun _ _ _ _ _ hP => byteArrayBody_final hM hP.1 hP.2)
    (fun _ _ hw _ _ _ hP => fixedLenBody_final hM hw hP.1 hP.2)
    ⟨Run.nil, rfl⟩

/-! ## The stores carry the answer of the sink -/

theorem snoc_split {α : Type} {T pre post : List α} {e x : α}
    (h : T ++ [e] = pre ++ x :: post) :
    (∃ post', post = post' ++ [e] ∧ T = pre ++ x :: post') ∨
    (post = [] ∧ pre = T ∧ x = e) := by
  rcases List.eq_nil_or_concat post with hp | ⟨post', y, hp⟩
  · subst hp
    have := List.append_inj' h (by simp)
    right
    refine ⟨rfl, this.1.symm, ?_⟩
    have h2 := this.2
    simp at h2
    exact h2.symm
  · subst hp
    have h' : T ++ [e] = (pre ++ x :: post') ++ [y] := by simpa using h
    have := List.append_inj' h' (by simp)
    left
    have h2 := this.2
    simp at h2
    subst h2
    exact ⟨post', by simp, this.1⟩

theorem Answered.pull_answered {env : Stata} {tr : List Event} (h : Answered env tr)
    (t : PhysicalType) (r j : Nat) (v : Bytes) : Answered env (tr ++ [.pull t r j v]) := by
  intro pre w post heq
  rcases snoc_split heq with ⟨post', _, hT⟩ | ⟨_, _, hx⟩
  · exact h pre w post' hT
  · cases hx

theorem Answered.store_answered {env : Stata} {tr : List Event} (h : Answered env tr)
    (w : Write) (hw : w.status = sinkAnswer env tr w) : Answered env (tr ++ [.store w]) := by
  intro pre w' post heq
  rcases snoc_split heq with ⟨post', _, hT⟩ | ⟨_, hpre, hx⟩
  · exact h pre w' post' hT
  · cases hx
    subst hpre
    exact hw

theorem read_answered {env : Stata} {f : ParquetFile} {sel : Selection}
    (hsel : resolve env = .ok sel) : Answered env (sf_ll_read_varlist env (some f)).trace := by
  refine read_rule (fun st => Answered env st.trace) (fun res => Answered env res.trace) hsel
    (fun _ _ _ hg => hg) (fun _ _ hg => hg) ?_ ?_ ?_ ?_
  · intro r j t _ v i st hg
    refine ⟨fun st' h => ?_, fun res h => ?_⟩ <;>
    · simp only [vstoreBody] at h
      split at h
      all_goals cases h
      all_goals exact (hg.pull_answered t r j v).store_answered _ rfl
  · intro r j v i st hg
    refine ⟨fun st' h => ?_, fun res h => ?_⟩ <;>
    · simp only [byteArrayBody] at h
      split at h
      · cases h <;> exact hg.pull_answered _ r j v
      · split at h
        all_goals cases h
        all_goals exact (hg.pull_answered _ r j v).store_answered _ rfl
  · intro r j _ v i st hg
    refine ⟨fun st' h => ?_, fun res h => ?_⟩ <;>
    · simp only [fixedLenBody] at h
      split at h
      all_goals cases h
      all_goals exact (hg.pull_answered _ r j v).store_answered _ rfl
  · intro pre w post h
    simp at h

/-! ## Consequences of the shape -/

theorem read_cases (env : Stata) (file : Option ParquetFile) :
    (sf_ll_read_varlist env file).trace = [] ∨
    ∃ f sel, file = some f ∧ resolve env = .ok sel := by
  cases file with
  | none => left; rfl
  | some f =>
    cases hsel : resolve env with
    | error rc => left; simp [sf_ll_read_varlist, hsel]
    | ok sel => right; exact ⟨f, sel, rfl, rfl⟩

theorem shape_refused {file : ParquetFile} {sel : Selection} {rc : Int} {a : List Event}
    (ha : Run file sel a) :
    ∀ {b pre post : List Event} {w : Write}, Ending file sel rc b →
      a ++ b = pre ++ .store w :: post → w.status ≠ 0 → post = [] ∧ rc = w.status := by
  induction ha with
  | nil =>
    intro b pre post w hb h hs
    cases hb with
    | quiet => simp at h
    | violation _ _ =>
      rcases pre with _ | ⟨x, pre⟩ <;> simp at h
    | refused hp hne hrc =>
      rcases pre with _ | ⟨x, _ | ⟨y, pre⟩⟩ <;> simp at h
      obtain ⟨_, hw, hpost⟩ := h
      subst hw
      exact ⟨hpost, hrc⟩
  | cons hp hz _ ih =>
    intro b pre post w hb h hs
    rcases pre with _ | ⟨x, _ | ⟨y, pre⟩⟩
    · simp at h
    · simp at h
      obtain ⟨_, hw, _⟩ := h
      subst hw
      exact absurd hz hs
    · simp at h
      exact ih hb h.2.2 hs

theorem PairOK.fits_capacity {file : ParquetFile} {sel : Selection} {r j : Nat} {v : Bytes}
    {w : Write} (hp : PairOK file sel .BYTE_ARRAY r j v w) :
    (v.length : Int) ≤ sel.vtypes.getD j 0 := by
  rcases hp.2.2 with ⟨hn, _⟩ | ⟨_, hfit, _⟩ | ⟨ht, _⟩
  · cases hn
  · exact hfit
  · cases ht

theorem shape_violation {file : ParquetFile} {sel : Selection} {rc : Int} {a : List Event}
    (ha : Run file sel a) :
    ∀ {b pre post : List Event} {r j : Nat} {v : Bytes}, Ending file sel rc b →
      a ++ b = pre ++ .pull .BYTE_ARRAY r j v :: post →
      sel.vtypes.getD j 0 < (v.length : Int) → rc = 17103 ∧ post = [] := by
  induction ha with
  | nil =>
    intro b pre post r j v hb h hlen
    cases hb with
    | quiet => simp at h
    | violation _ hrc =>
      rcases pre with _ | ⟨x, pre⟩ <;> simp at h
      exact ⟨hrc, h.2⟩
    | refused hp hne hrc =>
      rcases pre with _ | ⟨x, _ | ⟨y, pre⟩⟩ <;> simp at h
      obtain ⟨⟨ht, _, hj, hv⟩, _⟩ := h
      subst ht; subst hj; subst hv
      have := hp.fits_capacity
      omega
  | cons hp hz _ ih =>
    intro b pre post r j v hb h hlen
    rcases pre with _ | ⟨x, _ | ⟨y, pre⟩⟩
    · simp at h
      obtain ⟨⟨ht, _, hj, hv⟩, _⟩ := h
      subst ht; subst hj; subst hv
      have := hp.fits_capacity
      omega
    · simp at h
    · simp at h
      exact ih hb h.2.2 hlen

theorem shape_paired {file : ParquetFile} {sel : Selection} {rc : Int} {a : List Event}
    (ha : Run file sel a) :
    ∀ {b pre post : List Event} {w : Write}, Ending file sel rc b →
      a ++ b = pre ++ .store w :: post →
      ∃ pre' t v, pre = pre' ++ [.pull t w.r w.j v] ∧ PairOK file sel t w.r w.j v w := by
  induction ha with
  | nil =>
    intro b pre post w hb h
    cases hb with
    | quiet => simp at h
    | violation _ _ =>
      rcases pre with _ | ⟨x, pre⟩ <;> simp at h
    | refused hp hne hrc =>
      rcases pre with _ | ⟨x, _ | ⟨y, pre⟩⟩ <;> simp at h
      obtain ⟨hx, hw, _⟩ := h
      subst hw; subst hx
      have h1 := hp.1
      have h2 := hp.2.1
      subst h1; subst h2
      exact ⟨[], _, _, rfl, hp⟩
  | cons hp hz _ ih =>
    intro b pre post w hb h
    rcases pre with _ | ⟨x, _ | ⟨y, pre⟩⟩
    · simp at h
    · simp at h
      obtain ⟨hx, hw, _⟩ := h
      subst hw; subst hx
      have h1 := hp.1
      have h2 := hp.2.1
      subst h1; subst h2
      exact ⟨[], _, _, rfl, hp⟩
    · simp at h
      obtain ⟨hx, hy, hrest⟩ := h
      obtain ⟨pre', t, v, hpre, hpair⟩ := ih hb hrest
      subst hx; subst hy; subst hpre
      exact ⟨_ :: _ :: pre', t, v, rfl, hpair⟩

theorem readColtypes_fold (env : Stata) :
    ∀ (js : List Nat) (m0 : Int) (vs : List Int) (mx : Int),
      readColtypes env js m0 = .ok (vs, mx) → mx = vs.foldl max m0 := by
  intro js
  induction js with
  | nil =>
    intro m0 vs mx h
    simp [readColtypes] at h
    obtain ⟨h1, h2⟩ := h
    subst h1; subst h2
    rfl
  | cons j js ih =>
    intro m0 vs mx h
    simp only [readColtypes] at h
    split at h
    · cases h
    · split at h
      · cases h
      · rename_i vs' mx' heq
        simp at h
        obtain ⟨h1, h2⟩ := h
        subst h1; subst h2
        have := ih _ _ _ heq
        rw [this, List.foldl_cons]
        congr 1
        split <;> omega

theorem resolve_maxstrlen_eq {env : Stata} {sel : Selection} (h : resolve env = .ok sel) :
    sel.maxstrlen = sel.vtypes.foldl max 1 := by
  unfold resolve at h
  simp only at h
  split at h
  · cases h
  · split at h
    · cases h
    · rename_i vtypes mx heq
      split at h
      · cases h
      · simp at h
        subst h
        exact readColtypes_fold env _ _ _ _ heq

/-! ## Sink failures (C8) -/

/-- C8. Sink failure propagation: whenever a store of the trace was answered
by the sink with a non-zero status (whatever the physical type of the column),
nothing follows that store in the trace, so no further value, column or row
group is processed, and the read returns exactly that status. The status
recorded with the store is the answer of `SF_vstore` / `SF_sstore` to that
call. -/
theorem sink_failure_propagates (env : Stata) (file : Option ParquetFile)
    (pre post : List Event) (w : Write)
    (htr : (sf_ll_read_varlist env file).trace = pre ++ .store w :: post)
    (hs : sinkAnswer env pre w ≠ 0) :
    w.status = sinkAnswer env pre w ∧ post = [] ∧
      (sf_ll_read_varlist env file).rc = sinkAnswer env pre w := by
  rcases read_cases env file with hnil | ⟨f, sel, hf, hsel⟩
  · rw [hnil] at htr
    simp at htr
  · subst hf
    have hans := read_answered (f := f) hsel pre w post htr
    obtain ⟨a, b, hab, ha, hb⟩ := read_final (f := f) hsel
    rw [hab] at htr
    rw [← hans] at hs ⊢
    exact ⟨rfl, shape_refused ha hb htr hs⟩

/-- C8, instance: an INT32 column of three values and a sink that refuses
the second store with status 5. -/
theorem sink_failure_propagates_witness :
    sinkAnswer (tableStata (0, 1) [(0, 1)] [(0, 1)] (fun n => if n = 1 then 5 else 0))
        [.pull .INT32 0 0 [1], .store ⟨0, 0, 1, 0, .num .INT32 [1], 0⟩, .pull .INT32 0 0 [2]]
        ⟨0, 0, 2, 0, .num .INT32 [2], 5⟩ ≠ 0 ∧
    ((5 : Int) = sinkAnswer (tableStata (0, 1) [(0, 1)] [(0, 1)] (fun n => if n = 1 then 5 else 0))
        [.pull .INT32 0 0 [1], .store ⟨0, 0, 1, 0, .num .INT32 [1], 0⟩, .pull .INT32 0 0 [2]]
        ⟨0, 0, 2, 0, .num .INT32 [2], 5⟩ ∧
      ([] : List Event) = [] ∧
      (sf_ll_read_varlist (tableStata (0, 1) [(0, 1)] [(0, 1)] (fun n => if n = 1 then 5 else 0))
        (some (tableFile [.INT32] 0 [[[[1], [2], [3]]]]))).rc =
      sinkAnswer (tableStata (0, 1) [(0, 1)] [(0, 1)] (fun n => if n = 1 then 5 else 0))
        [.pull .INT32 0 0 [1], .store ⟨0, 0, 1, 0, .num .INT32 [1], 0⟩, .pull .INT32 0 0 [2]]
        ⟨0, 0, 2, 0, .num .INT32 [2], 5⟩) :=
  ⟨by decide,
    sink_failure_propagates
      (tableStata (0, 1) [(0, 1)] [(0, 1)] (fun n => if n = 1 then 5 else 0))
      (some (tableFile [.INT32] 0 [[[[1], [2], [3]]]]))
      [.pull .INT32 0 0 [1], .store ⟨0, 0, 1, 0, .num .INT32 [1], 0⟩, .pull .INT32 0 0 [2]]
      [] ⟨0, 0, 2, 0, .num .INT32 [2], 5⟩ (by decide) (by decide)⟩

/-! ## Capacity violation (C3) -/

/-- C3. When the byte-array reader has pulled a value longer than the
declared capacity `vtypes[j]` of its column, the read returns 17103 and the
pull is the last call of the trace: the value is not stored, and no further
value, column or row group is pulled or stored. -/
theorem capacity_violation_halts (env : Stata) (file : Option ParquetFile) (sel : Selection)
    (pre post : List Event) (r j : Nat) (v : Bytes)
    (hsel : resolve env = .ok sel)
    (htr : (sf_ll_read_varlist env file).trace = pre ++ .pull .BYTE_ARRAY r j v :: post)
    (hlen : sel.vtypes.getD j 0 < (v.length : Int)) :
    (sf_ll_read_varlist env file).rc = 17103 ∧ post = [] := by
  rcases read_cases env file with hnil | ⟨f, sel', hf, hsel'⟩
  · rw [hnil] at htr
    simp at htr
  · subst hf
    obtain ⟨a, b, hab, ha, hb⟩ := read_final (f := f) hsel
    rw [hab] at htr
    exact shape_violation ha hb htr hlen

/-- C3, instance: a byte-array column of capacity 2 holding "ab", "abc",
"z" in its only row group; the read stops at the pull of "abc". -/
theorem capacity_violation_halts_witness :
    (sf_ll_read_varlist (tableStata (0, 1) [(0, 1)] [(0, 2)] (fun _ => 0))
        (some (tableFile [.BYTE_ARRAY] 0 [[[[97, 98], [97, 98, 99], [122]]]]))).rc = 17103 ∧
      ([] : List Event) = [] :=
  capacity_violation_halts (tableStata (0, 1) [(0, 1)] [(0, 2)] (fun _ => 0))
    (some (tableFile [.BYTE_ARRAY] 0 [[[[97, 98], [97, 98, 99], [122]]]]))
    ⟨1, [0], [2], 2⟩
    [.pull .BYTE_ARRAY 0 0 [97, 98], .store ⟨0, 0, 1, 0, .str [97, 98], 0⟩] []
    0 0 [97, 98, 99] (by rfl) (by decide) (by decide)

/-! ## The scratch buffer (C10) -/

/-- C10. The buffer handed to the sink by a store of a string column is the
pulled value followed by zero bytes only, up to the size `maxstrlen` of the
buffer, which is the largest of 1 and the declared capacities: each store of
a buffer comes right after the pull of a value `v` by the byte-array or the
fixed-length reader, and the buffer is the first `n` bytes of `v` (`n` its
length for a byte array, the schema width for a fixed-length value, in both
cases within `maxstrlen`) followed by `maxstrlen - n` zero bytes. Nothing of
an earlier value is left in it. -/
theorem scratch_buffer_clean (env : Stata) (f : ParquetFile) (sel : Selection)
    (pre post : List Event) (w : Write) (buf : Bytes)
    (hsel : resolve env = .ok sel)
    (htr : (sf_ll_read_varlist env (some f)).trace = pre ++ .store w :: post)
    (hbuf : w.payload = .str buf) :
    sel.maxstrlen = sel.vtypes.foldl max 1 ∧
    ∃ pre' t v n, pre = pre' ++ [.pull t w.r w.j v] ∧
      ((t = .BYTE_ARRAY ∧ n = v.length) ∨
       (t = .FIXED_LEN_BYTE_ARRAY ∧ n = (f.type_length (sel.colix.getD w.j 0)).toNat)) ∧
      n ≤ sel.maxstrlen.toNat ∧
      buf = v.take n ++ List.replicate (sel.maxstrlen.toNat - n) 0 := by
  refine ⟨resolve_maxstrlen_eq hsel, ?_⟩
  have hM := (resolve_maxstrlen hsel).2 w.j
  obtain ⟨a, b, hab, ha, hb⟩ := read_final (f := f) hsel
  rw [hab] at htr
  obtain ⟨pre', t, v, hpre, hpair⟩ := shape_paired ha hb htr
  rcases hpair.2.2 with ⟨_, hnum⟩ | ⟨ht, hfit, hpay⟩ | ⟨ht, hfit, hpay⟩
  · rw [hbuf] at hnum
    cases hnum
  · rw [hbuf] at hpay
    subst ht
    refine ⟨pre', _, v, v.length, hpre, Or.inl ⟨rfl, rfl⟩, by omega, ?_⟩
    simpa [handed, copyLen] using hpay
  · rw [hbuf] at hpay
    subst ht
    refine ⟨pre', _, v, _, hpre, Or.inr ⟨rfl, rfl⟩, by omega, ?_⟩
    simpa [handed, copyLen] using hpay

/-- C10, instance: a byte-array column of capacity 3 holding "abc" then
"d"; the second buffer is "d" followed by two zero bytes. -/
theorem scratch_buffer_clean_witness :
    (3 : Int) = List.foldl max 1 [3] ∧
    ∃ pre' t v n,
      [Event.pull .BYTE_ARRAY 0 0 [97, 98, 99],
        .store ⟨0, 0, 1, 0, .str [97, 98, 99], 0⟩,
        .pull .BYTE_ARRAY 0 0 [100]] = pre' ++ [.pull t 0 0 v] ∧
      ((t = .BYTE_ARRAY ∧ n = v.length) ∨
       (t = .FIXED_LEN_BYTE_ARRAY ∧
          n = ((tableFile [.BYTE_ARRAY] 0 [[[[97, 98, 99], [100]]]]).type_length
            (([0] : List Int).getD 0 0)).toNat)) ∧
      n ≤ (3 : Int).toNat ∧
      [100, 0, 0] = v.take n ++ List.replicate ((3 : Int).toNat - n) 0 :=
  scratch_buffer_clean (tableStata (0, 1) [(0, 1)] [(0, 3)] (fun _ => 0))
    (tableFile [.BYTE_ARRAY] 0 [[[[97, 98, 99], [100]]]])
    ⟨1, [0], [3], 3⟩
    [.pull .BYTE_ARRAY 0 0 [97, 98, 99], .store ⟨0, 0, 1, 0, .str [97, 98, 99], 0⟩,
      .pull .BYTE_ARRAY 0 0 [100]]
    [] ⟨0, 0, 2, 0, .str [100, 0, 0], 0⟩ [100, 0, 0] (by rfl) (by decide) (by decide)

/-! ## Positions of the stores -/

theorem Pos.mono_pos {r jb jb' : Nat} {X hi hi' : Int} {tr : List Event}
    (h : Pos r jb X hi tr) (hj : jb ≤ jb') (hh : hi ≤ hi') : Pos r jb' X hi' tr := by
  intro w hw
  rcases h w hw with h1 | ⟨h1, h2, h3, h4, h5⟩
  · exact Or.inl h1
  · exact Or.inr ⟨h1, by omega, h3, h4, by omega⟩

theorem Pos.below {r jb : Nat} {X hi : Int} {tr : List Event}
    (h : Pos r jb X hi tr) : Below r jb tr := by
  intro w hw
  rcases h w hw with h1 | ⟨h1, h2, _⟩
  · exact Or.inl h1.1
  · exact Or.inr ⟨h1, h2⟩

theorem Below.mono_below {r jb jb' : Nat} {tr : List Event}
    (h : Below r jb tr) (hj : jb ≤ jb') : Below r jb' tr := by
  intro w hw
  rcases h w hw with h1 | ⟨h1, h2⟩
  · exact Or.inl h1
  · exact Or.inr ⟨h1, by omega⟩

theorem Pos.pull_pos {r jb : Nat} {X hi : Int} {tr : List Event} (h : Pos r jb X hi tr)
    (t : PhysicalType) (r' j' : Nat) (v : Bytes) : Pos r jb X hi (tr ++ [.pull t r' j' v]) := by
  intro w hw
  simp at hw
  exact h w hw

theorem Sep.pull_sep {tr : List Event} (h : Sep tr)
    (t : PhysicalType) (r' j' : Nat) (v : Bytes) : Sep (tr ++ [.pull t r' j' v]) := by
  intro w w' hw hw'
  simp at hw hw'
  exact h w w' hw hw'

theorem Pos.store_pos {r jb : Nat} {X hi : Int} {tr : List Event} (h : Pos r jb X hi tr)
    (w : Write) (h1 : w.r = r) (h2 : w.j < jb) (h3 : w.ix = X) (h4 : 1 ≤ w.i) (h5 : w.i ≤ hi) :
    Pos r jb X hi (tr ++ [.store w]) := by
  intro w' hw'
  simp at hw'
  rcases hw' with hw' | hw'
  · exact h w' hw'
  · subst hw'
    exact Or.inr ⟨h1, h2, h3, h4, h5⟩

theorem Sep.store_sep {r jb : Nat} {X hi : Int} {tr : List Event} (hs : Sep tr)
    (h : Pos r jb X hi tr)
    (w : Write) (h1 : w.r = r) (h3 : w.ix = X) (h4 : 1 ≤ w.i) :
    Sep (tr ++ [.store w]) := by
  intro a b ha hb hlt
  simp at ha hb
  rcases ha with ha | ha <;> rcases hb with hb | hb
  · exact hs a b ha hb hlt
  · subst hb
    rcases h a ha with ⟨_, hrow⟩ | ⟨hr, _⟩
    · simp only [Write.row] at hrow ⊢
      omega
    · omega
  · subst ha
    rcases h b hb with ⟨hr, _⟩ | ⟨hr, _⟩ <;> omega
  · subst ha; subst hb
    omega

/-- The invariant of the pull loop of column `j` of row group `r`, entered
with `ix = X` and `ig = g`. -/
theorem body_pos {r j : Nat} {X g i : Int} {st : State} {t : PhysicalType} {v : Bytes}
    (hP : st.ix = X ∧ st.ig = g ∧ 0 ≤ i ∧
      Pos r (j + 1) X (if i > g then i else g) st.trace ∧ Sep st.trace) :
    (Pos r (j + 1) X (if i + 1 > g then i + 1 else g) (st.trace ++ [.pull t r j v]) ∧
      Sep (st.trace ++ [.pull t r j v])) ∧
    ∀ p s, Pos r (j + 1) X (if i + 1 > g then i + 1 else g)
        (st.trace ++ [.pull t r j v] ++ [.store ⟨r, j, i + 1, st.ix, p, s⟩]) ∧
      Sep (st.trace ++ [.pull t r j v] ++ [.store ⟨r, j, i + 1, st.ix, p, s⟩]) := by
  obtain ⟨hix, _, hi, hpos, hsep⟩ := hP
  have hpos' : Pos r (j + 1) X (if i + 1 > g then i + 1 else g) st.trace :=
    hpos.mono_pos (le_refl _) (by split <;> split <;> omega)
  refine ⟨⟨hpos'.pull_pos _ _ _ _, hsep.pull_sep _ _ _ _⟩, fun p s => ⟨?_, ?_⟩⟩
  · exact (hpos'.pull_pos _ _ _ _).store_pos _ rfl (by simp) hix (by simp; omega)
      (by simp only; split <;> omega)
  · exact (hsep.pull_sep _ _ _ _).store_sep (hpos'.pull_pos t r j v) _ rfl hix (by simp; omega)

theorem readColumn_pos (env : Stata) (file : ParquetFile) (sel : Selection) (r j : Nat)
    (st : State) (h0 : ColEntry r j st) :
    (∀ st', readColumn env file sel r j st = .ok st' →
        ColEntry r (j + 1) st' ∧ st'.ix = st.ix) ∧
    (∀ res, readColumn env file sel r j st = .error res →
        res.rc ≠ 0 ∧ Sep res.trace ∧ Below r (j + 1) res.trace) := by
  obtain ⟨hg, hpos, hsep⟩ := h0
  refine readColumn_rule
    (fun i s => s.ix = st.ix ∧ s.ig = st.ig ∧ 0 ≤ i ∧
      Pos r (j + 1) st.ix (if i > st.ig then i else st.ig) s.trace ∧ Sep s.trace)
    (fun s => ColEntry r (j + 1) s ∧ s.ix = st.ix)
    (fun res => res.rc ≠ 0 ∧ Sep res.trace ∧ Below r (j + 1) res.trace)
    ?_ ?_ ?_ ?_ ?_ st ?_
  · intro i s hP
    obtain ⟨hix, hig, hi, hp, hs⟩ := hP
    refine ⟨⟨?_, ?_, hs⟩, hix⟩
    · simp only [endColumn, hig]
      split <;> omega
    · simp only [endColumn, hig, hix]
      exact hp
  · intro i s rc hrc hP
    exact ⟨hrc, hP.2.2.2.2, hP.2.2.2.1.below⟩
  · intro t _ v i s hP
    have hb := body_pos (t := t) (v := v) hP
    refine ⟨fun st' h => ?_, fun res h => ?_⟩
    · simp only [vstoreBody] at h
      split at h
      · cases h
      · cases h
        exact ⟨hP.1, hP.2.1, by omega, (hb.2 _ _).1, (hb.2 _ _).2⟩
    · simp only [vstoreBody] at h
      split at h
      · rename_i hrc
        cases h
        exact ⟨hrc, (hb.2 _ _).2, (hb.2 _ _).1.below⟩
      · cases h
  · intro v i s hP
    have hb := body_pos (t := .BYTE_ARRAY) (v := v) hP
    refine ⟨fun st' h => ?_, fun res h => ?_⟩
    · simp only [byteArrayBody] at h
      split at h
      · cases h
      · split at h
        · cases h
        · cases h
          exact ⟨hP.1, hP.2.1, by omega, (hb.2 _ _).1, (hb.2 _ _).2⟩
    · simp only [byteArrayBody] at h
      split at h
      · cases h
        exact ⟨by simp, hb.1.2, hb.1.1.below⟩
      · split at h
        · rename_i hrc
          cases h
          exact ⟨hrc, (hb.2 _ _).2, (hb.2 _ _).1.below⟩
        · cases h
  · intro _ v i s hP
    have hb := body_pos (t := .FIXED_LEN_BYTE_ARRAY) (v := v) hP
    refine ⟨fun st' h => ?_, fun res h => ?_⟩
    · simp only [fixedLenBody] at h
      split at h
      · cases h
      · cases h
        exact ⟨hP.1, hP.2.1, by omega, (hb.2 _ _).1, (hb.2 _ _).2⟩
    · simp only [fixedLenBody] at h
      split at h
      · rename_i hrc
        cases h
        exact ⟨hrc, (hb.2 _ _).2, (hb.2 _ _).1.below⟩
      · cases h
  · refine ⟨rfl, rfl, le_refl _, ?_, hsep⟩
    exact hpos.mono_pos (by omega) (by split <;> omega)

theorem ColEntry.mono_entry {r jb jb' : Nat} {st : State} (h : ColEntry r jb st) (hj : jb ≤ jb') :
    ColEntry r jb' st :=
  ⟨h.1, h.2.1.mono_pos hj (le_refl _), h.2.2⟩

theorem colsLoop_pos (env : Stata) (file : ParquetFile) (sel : Selection) (r : Nat) :
    ∀ (js : List Nat) (jb : Nat) (st : State), js.Pairwise (· < ·) → (∀ j ∈ js, jb ≤ j) →
      ColEntry r jb st →
      (∀ st', colsLoop env file sel r js st = .ok st' →
          (∃ jb', ColEntry r jb' st') ∧ st'.ix = st.ix) ∧
      (∀ res, colsLoop env file sel r js st = .error res →
          res.rc ≠ 0 ∧ Sep res.trace ∧ ∃ jb', Below r jb' res.trace) := by
  intro js
  induction js with
  | nil =>
    intro jb st _ _ h0
    refine ⟨fun st' h => ?_, fun res h => ?_⟩
    · simp only [colsLoop] at h
      cases h
      exact ⟨⟨jb, h0⟩, rfl⟩
    · simp only [colsLoop] at h
      cases h
  | cons j js ih =>
    intro jb st hsorted hlb h0
    have hc := readColumn_pos env file sel r j st
      (h0.mono_entry (hlb j (by simp)))
    have hsorted' := (List.pairwise_cons.mp hsorted)
    refine ⟨fun st' h => ?_, fun res h => ?_⟩
    · simp only [colsLoop] at h
      split at h
      · cases h
      · rename_i st1 heq
        have h1 := hc.1 _ heq
        have := (ih (j + 1) st1 hsorted'.2 (fun j' hj' => hsorted'.1 j' hj') h1.1).1 _ h
        exact ⟨this.1, this.2.trans h1.2⟩
    · simp only [colsLoop] at h
      split at h
      · rename_i res1 heq
        cases h
        have h1 := hc.2 _ heq
        exact ⟨h1.1, h1.2.1, j + 1, h1.2.2⟩
      · rename_i st1 heq
        have h1 := hc.1 _ heq
        exact (ih (j + 1) st1 hsorted'.2 (fun j' hj' => hsorted'.1 j' hj') h1.1).2 _ h

theorem groupsLoop_sep (env : Stata) (file : ParquetFile) (sel : Selection) :
    ∀ (rs : List Nat) (rb : Nat) (st : State), rs.Pairwise (· < ·) → (∀ r ∈ rs, rb ≤ r) →
      GroupEntry rb st →
      (∀ st', groupsLoop env file sel rs st = .ok st' → Sep st'.trace) ∧
      (∀ res, groupsLoop env file sel rs st = .error res → Sep res.trace) := by
  intro rs
  induction rs with
  | nil =>
    intro rb st _ _ h0
    refine ⟨fun st' h => ?_, fun res h => ?_⟩
    · simp only [groupsLoop] at h
      cases h
      exact h0.2.1
    · simp only [groupsLoop] at h
      cases h
  | cons r rs ih =>
    intro rb st hsorted hlb h0
    obtain ⟨hig, hsep, hall⟩ := h0
    have hrb := hlb r (by simp)
    have hsorted' := (List.pairwise_cons.mp hsorted)
    have hentry : ColEntry r 0 { st with ix := st.ix + st.ig } := by
      refine ⟨hig, ?_, hsep⟩
      intro w hw
      have := hall w hw
      exact Or.inl ⟨by omega, this.2⟩
    have hc := colsLoop_pos env file sel r
      (List.range sel.ncol.toNat) 0 _ (List.pairwise_lt_range _) (fun _ _ => Nat.zero_le _)
      hentry
    have hnext : ∀ st1, colsLoop env file sel r (List.range sel.ncol.toNat)
        { st with ix := st.ix + st.ig } = .ok st1 → GroupEntry (r + 1) st1 := by
      intro st1 heq
      obtain ⟨⟨jb', hg1, hpos1, hsep1⟩, hix1⟩ := hc.1 _ heq
      refine ⟨hg1, hsep1, ?_⟩
      intro w hw
      rcases hpos1 w hw with ⟨h1, h2⟩ | ⟨h1, _, h3, _, h5⟩
      · exact ⟨by omega, by omega⟩
      · refine ⟨by omega, ?_⟩
        simp only [Write.row]
        omega
    refine ⟨fun st' h => ?_, fun res h => ?_⟩
    · simp only [groupsLoop] at h
      split at h
      · cases h
      · rename_i st1 heq
        exact (ih (r + 1) st1 hsorted'.2 (fun r' hr' => hsorted'.1 r' hr') (hnext _ heq)).1 _ h
    · simp only [groupsLoop] at h
      split at h
      · rename_i res1 heq
        cases h
        exact (hc.2 _ heq).2.1
      · rename_i st1 heq
        exact (ih (r + 1) st1 hsorted'.2 (fun r' hr' => hsorted'.1 r' hr') (hnext _ heq)).2 _ h

/-! ## Rows of different row groups (C2) -/

/-- C2. Rows from different row groups never collide: of two stores made
while decoding row groups `g < g'`, the one of `g` is at a strictly smaller
row. This holds for every file, also when the columns of a row group hold
different numbers of values, and for every pair of stores, in particular
for two stores to the same sink column. -/
theorem groups_never_collide (env : Stata) (file : Option ParquetFile) (w w' : Write)
    (hw : Event.store w ∈ (sf_ll_read_varlist env file).trace)
    (hw' : Event.store w' ∈ (sf_ll_read_varlist env file).trace)
    (hg : w.r < w'.r) : w.row < w'.row := by
  rcases read_cases env file with hnil | ⟨f, sel, hf, hsel⟩
  · rw [hnil] at hw
    simp at hw
  · subst hf
    have h0 : GroupEntry 0 ⟨0, 0, 0, SPARQUET_CHAR sel.maxstrlen, []⟩ :=
      ⟨le_refl _, fun _ _ h => by simp at h, fun _ h => by simp at h⟩
    have hl := groupsLoop_sep env f sel
      (List.range f.num_row_groups) 0 _ (List.pairwise_lt_range _)
      (fun _ _ => Nat.zero_le _) h0
    have hsep : Sep (sf_ll_read_varlist env (some f)).trace := by
      simp only [sf_ll_read_varlist, hsel]
      split
      · rename_i res heq
        exact hl.2 _ heq
      · rename_i st heq
        exact hl.1 _ heq
    exact hsep w w' hw hw' hg

/-- C2, instance: two INT32 columns holding 1 and 3 values in the first row
group and a value each in the second; the third row of the first group and
the row of the second group. -/
theorem groups_never_collide_witness :
    (⟨0, 1, 3, 0, .num .INT32 [4], 0⟩ : Write).row <
      (⟨1, 0, 1, 3, .num .INT32 [5], 0⟩ : Write).row :=
  groups_never_collide (tableStata (0, 2) [(0, 1), (0, 2)] [(0, 1), (0, 1)] (fun _ => 0))
    (some (tableFile [.INT32, .INT32] 0 [[[[1]], [[2], [3], [4]]], [[[5]], [[6]]]]))
    ⟨0, 1, 3, 0, .num .INT32 [4], 0⟩ ⟨1, 0, 1, 3, .num .INT32 [5], 0⟩
    (by decide) (by decide) (by decide)

/-! ## No column selected (C9) -/

theorem groupsLoop_nocol (env : Stata) (file : ParquetFile) (sel : Selection)
    (h : sel.ncol.toNat = 0) :
    ∀ (rs : List Nat) (st : State), ∃ st', groupsLoop env file sel rs st = .ok st' ∧
      st'.rc = st.rc ∧ st'.trace = st.trace := by
  intro rs
  induction rs with
  | nil => intro st; exact ⟨st, rfl, rfl, rfl⟩
  | cons r rs ih =>
    intro st
    obtain ⟨st', h1, h2, h3⟩ := ih { st with ix := st.ix + st.ig }
    refine ⟨st', ?_, h2, h3⟩
    simp only [groupsLoop, h, List.range_zero, colsLoop]
    exact h1

/-- C9. When the selected-column count is retrieved and is zero and the file
opens, the read makes no call to the sink (its trace is empty) and returns
0, whatever the number of row groups of the file. -/
theorem zero_columns_succeeds (env : Stata) (f : ParquetFile)
    (h : env.SF_scal_use "__sparquet_ncol" = (0, 0)) :
    sf_ll_read_varlist env (some f) = ⟨0, []⟩ := by
  have hsel : resolve env = .ok ⟨0, [], [], 1⟩ := by
    simp [resolve, h, readColix, readColtypes]
  obtain ⟨st', h1, h2, h3⟩ := groupsLoop_nocol env f
    ⟨0, [], [], 1⟩ rfl (List.range f.num_row_groups)
    ⟨0, 0, 0, SPARQUET_CHAR 1, []⟩
  simp only [sf_ll_read_varlist, hsel, h1]
  rw [h2, h3]

/-- C9, instance: a file of three row groups with one INT32 column, none
selected. -/
theorem zero_columns_succeeds_witness :
    sf_ll_read_varlist (tableStata (0, 0) [] [] (fun _ => 0))
      (some (tableFile [.INT32] 0 [[[[1]]], [[[2]]], [[[3]]]])) = ⟨0, []⟩ :=
  zero_columns_succeeds (tableStata (0, 0) [] [] (fun _ => 0))
    (tableFile [.INT32] 0 [[[[1]]], [[[2]]], [[[3]]]]) (by rfl)

/-! ## Failed resolution (C7) -/

theorem readColix_find (env : Stata) :
    ∀ (js : List Nat),
      (∀ c, firstFailure (js.map fun j =>
          (env.SF_mat_el "__sparquet_colix" 1 ((j : Int) + 1)).1) = some c →
        readColix env js = .error c) ∧
      (firstFailure (js.map fun j =>
          (env.SF_mat_el "__sparquet_colix" 1 ((j : Int) + 1)).1) = none →
        ∃ cs, readColix env js = .ok cs) := by
  intro js
  induction js with
  | nil =>
    refine ⟨fun c h => ?_, fun _ => ⟨[], rfl⟩⟩
    simp [firstFailure] at h
  | cons j js ih =>
    simp only [List.map_cons, firstFailure, readColix]
    split
    · refine ⟨fun c h => ?_, fun h => ?_⟩
      · cases h; rfl
      · cases h
    · refine ⟨fun c h => ?_, fun h => ?_⟩
      · rw [ih.1 c h]
      · obtain ⟨cs, hcs⟩ := ih.2 h
        rw [hcs]
        exact ⟨_, rfl⟩

theorem readColtypes_find (env : Stata) :
    ∀ (js : List Nat) (m0 : Int),
      (∀ c, firstFailure (js.map fun j =>
          (env.SF_mat_el "__sparquet_coltypes" 1 ((j : Int) + 1)).1) = some c →
        readColtypes env js m0 = .error c) ∧
      (firstFailure (js.map fun j =>
          (env.SF_mat_el "__sparquet_coltypes" 1 ((j : Int) + 1)).1) = none →
        ∃ p, readColtypes env js m0 = .ok p) := by
  intro js
  induction js with
  | nil =>
    intro m0
    refine ⟨fun c h => ?_, fun _ => ⟨_, rfl⟩⟩
    simp [firstFailure] at h
  | cons j js ih =>
    intro m0
    simp only [List.map_cons, firstFailure, readColtypes]
    split
    · refine ⟨fun c h => ?_, fun h => ?_⟩
      · cases h; rfl
      · cases h
    · refine ⟨fun c h => ?_, fun h => ?_⟩
      · rw [(ih _).1 c h]
      · obtain ⟨p, hp⟩ := (ih (if (env.SF_mat_el "__sparquet_coltypes" 1 ((j : Int) + 1)).2 > m0
          then (env.SF_mat_el "__sparquet_coltypes" 1 ((j : Int) + 1)).2 else m0)).2 h
        rw [hp]
        exact ⟨_, rfl⟩

theorem resolve_failure (env : Stata) (c : Int) (h : resolutionFailure env = some c) :
    resolve env = .error c := by
  unfold resolutionFailure entryCodes at h
  unfold resolve
  simp only
  have hn : (if (env.SF_scal_use "__sparquet_ncol").1 ≠ 0 then (1 : Int)
      else (env.SF_scal_use "__sparquet_ncol").2).toNat = entriesAsked env := by
    unfold entriesAsked
    split <;> rfl
  rw [hn]
  split at h
  · rename_i c1 h1
    cases h
    rw [(readColix_find env _).1 _ h1]
  · rename_i h1
    obtain ⟨cs, hcs⟩ := (readColix_find env _).2 h1
    rw [hcs]
    simp only
    split at h
    · rename_i c2 h2
      cases h
      rw [(readColtypes_find env _ 1).1 _ h2]
    · rename_i h2
      obtain ⟨p, hp⟩ := (readColtypes_find env _ 1).2 h2
      rw [hp]
      simp only
      split at h
      · rename_i hne
        cases h
        simp [hne]
      · cases h

theorem firstFailure_spec :
    ∀ (l : List Int),
      (firstFailure l = none → ∀ c ∈ l, c = 0) ∧
      (∀ c, firstFailure l = some c → c ≠ 0 ∧ c ∈ l) := by
  intro l
  induction l with
  | nil =>
    refine ⟨fun _ c hc => ?_, fun c h => ?_⟩
    · simp at hc
    · simp [firstFailure] at h
  | cons a l ih =>
    simp only [firstFailure]
    split
    · rename_i ha
      refine ⟨fun h => ?_, fun c h => ?_⟩
      · cases h
      · cases h
        exact ⟨ha, by simp⟩
    · rename_i ha
      refine ⟨fun h c hc => ?_, fun c h => ?_⟩
      · simp at hc
        rcases hc with hc | hc
        · subst hc
          simpa using ha
        · exact ih.1 h c hc
      · exact ⟨(ih.2 c h).1, by simp [(ih.2 c h).2]⟩

/-- C7, as amended. If the retrieval of the column count, of an entry of
`__sparquet_colix` or of an entry of `__sparquet_coltypes` fails (the
entries asked for being those of the columns `1 .. ncol`, with `ncol = 1`
when the count itself could not be retrieved), the read makes no call to the
sink and returns a non-zero code: the code of the first index entry that
fails; if none fails, the code of the first capacity entry that fails; and
if no entry fails, the code of the failed column count. -/
theorem resolution_failure_code (env : Stata) (f : ParquetFile)
    (hfail : (env.SF_scal_use "__sparquet_ncol").1 ≠ 0 ∨
      (∃ c ∈ entryCodes env "__sparquet_colix" (entriesAsked env), c ≠ 0) ∨
      (∃ c ∈ entryCodes env "__sparquet_coltypes" (entriesAsked env), c ≠ 0)) :
    ∃ c, resolutionFailure env = some c ∧ c ≠ 0 ∧
      sf_ll_read_varlist env (some f) = ⟨c, []⟩ := by
  have hsome : ∃ c, resolutionFailure env = some c ∧ c ≠ 0 := by
    unfold resolutionFailure
    split
    · rename_i c h1
      exact ⟨c, rfl, ((firstFailure_spec _).2 c h1).1⟩
    · rename_i h1
      split
      · rename_i c h2
        exact ⟨c, rfl, ((firstFailure_spec _).2 c h2).1⟩
      · rename_i h2
        split
        · rename_i hne
          exact ⟨_, rfl, hne⟩
        · rename_i hz
          exfalso
          rcases hfail with h | ⟨c, hc, hne⟩ | ⟨c, hc, hne⟩
          · exact hz h
          · exact hne ((firstFailure_spec _).1 h1 c hc)
          · exact hne ((firstFailure_spec _).1 h2 c hc)
  obtain ⟨c, hc, hne⟩ := hsome
  refine ⟨c, hc, hne, ?_⟩
  simp only [sf_ll_read_varlist, resolve_failure env c hc]

/-- C7, instance of the amended claim: the column count cannot be retrieved
(code 198) and the entries can; the read returns 198. -/
theorem resolution_failure_code_witness :
    ∃ c, resolutionFailure (tableStata (198, 0) [(0, 1)] [(0, 1)] (fun _ => 0)) = some c ∧
      c ≠ 0 ∧
      sf_ll_read_varlist (tableStata (198, 0) [(0, 1)] [(0, 1)] (fun _ => 0))
        (some (tableFile [.INT32] 0 [[[[1]]]])) = ⟨c, []⟩ :=
  resolution_failure_code (tableStata (198, 0) [(0, 1)] [(0, 1)] (fun _ => 0))
    (tableFile [.INT32] 0 [[[[1]]]]) (Or.inl (by decide))

/-- C7, counterexample to the claim as stated: the retrieval of the column
count fails first, with code 198, then the retrieval of the first index
entry fails with code 111; the read returns 111, the code of the later
failure, not 198. -/
theorem resolution_failure_not_first :
    ((tableStata (198, 0) [(111, 0)] [(0, 1)] (fun _ => 0)).SF_scal_use "__sparquet_ncol").1
        = 198 ∧
    ((tableStata (198, 0) [(111, 0)] [(0, 1)] (fun _ => 0)).SF_mat_el "__sparquet_colix" 1 1).1
        = 111 ∧
    (sf_ll_read_varlist (tableStata (198, 0) [(111, 0)] [(0, 1)] (fun _ => 0))
        (some (tableFile [.INT32] 0 [[[[1]]]]))).rc = 111 ∧
    (sf_ll_read_varlist (tableStata (198, 0) [(111, 0)] [(0, 1)] (fun _ => 0))
        (some (tableFile [.INT32] 0 [[[[1]]]]))).rc ≠
      ((tableStata (198, 0) [(111, 0)] [(0, 1)] (fun _ => 0)).SF_scal_use "__sparquet_ncol").1 := by
  decide

/-! ## The row offset between row groups (C1) -/

/-- C1, the code at a file where the claim fails: one selected INT32 column
holding 2, 1 and 1 values in three row groups. `ig` is not reset at the start
of a row group, so the offset in force in the third group is `2 + 2 = 4`,
not the sum `2 + 1 = 3` of the row counts of the groups before it, and the
four values are stored at the rows 1, 2, 3 and 5: row 4 is skipped. Each
entry below is the row group, `ix` and the row of a store. -/
theorem row_offset_skips_a_row :
    (stores (sf_ll_read_varlist (tableStata (0, 1) [(0, 1)] [(0, 1)] (fun _ => 0))
      (some (tableFile [.INT32] 0 [[[[10], [11]]], [[[12]]], [[[13]]]]))).trace).map
        (fun w => (w.r, w.ix, w.row)) =
      [(0, 0, 1), (0, 0, 2), (1, 2, 3), (2, 4, 5)] ∧
    (sf_ll_read_varlist (tableStata (0, 1) [(0, 1)] [(0, 1)] (fun _ => 0))
      (some (tableFile [.INT32] 0 [[[[10], [11]]], [[[12]]], [[[13]]]]))).rc = 0 := by
  decide

/-! ## The fixed-length branch (C6) -/

/-- C6, the code at a file where the claim fails: one selected
FIXED_LEN_BYTE_ARRAY column of width 2, declared capacity 2, one value in
each of two row groups, a sink that accepts every store. The first value is
stored, then control runs from the end of the fixed-length loop into the
`default` branch: the read returns 17100 and the value of the second row
group is never pulled. -/
theorem fixed_len_falls_through :
    sf_ll_read_varlist (tableStata (0, 1) [(0, 1)] [(0, 2)] (fun _ => 0))
      (some (tableFile [.FIXED_LEN_BYTE_ARRAY] 2 [[[[97, 98]]], [[[99, 100]]]])) =
    ⟨17100, [.pull .FIXED_LEN_BYTE_ARRAY 0 0 [97, 98],
      .store ⟨0, 0, 1, 0, .str [97, 98], 0⟩]⟩ := by
  decide

/-! ## Reads in which no collaborator fails -/

theorem stores_append (a b : List Event) : stores (a ++ b) = stores a ++ stores b := by
  induction a with
  | nil => rfl
  | cons e a ih =>
    cases e with
    | pull t r j v => simpa [stores] using ih
    | store w => simpa [stores] using ih

theorem takeWhile_append_of_not_all {α : Type} (p : α → Bool) :
    ∀ (l₁ l₂ : List α), l₁.all p = false → (l₁ ++ l₂).takeWhile p = l₁.takeWhile p := by
  intro l₁
  induction l₁ with
  | nil => intro l₂ h; simp at h
  | cons a l ih =>
    intro l₂ h
    by_cases ha : p a = true
    · have hl : l.all p = false := by
        simp only [List.all_cons, ha, Bool.true_and] at h
        exact h
      simp [List.takeWhile_cons, ha, ih l₂ hl]
    · simp [List.takeWhile_cons, ha]

theorem takeWhile_of_all {α : Type} (p : α → Bool) :
    ∀ (l : List α), l.all p = true → l.takeWhile p = l := by
  intro l
  induction l with
  | nil => intro _; rfl
  | cons a l ih =>
    intro h
    simp only [List.all_cons, Bool.and_eq_true] at h
    simp [List.takeWhile_cons, h.1, ih h.2]

theorem takeWhile_congr_mem {α : Type} (p q : α → Bool) :
    ∀ (l : List α), (∀ x ∈ l, p x = q x) → l.takeWhile p = l.takeWhile q := by
  intro l
  induction l with
  | nil => intro _; rfl
  | cons a l ih =>
    intro h
    have ha := h a (by simp)
    have hl := ih (fun x hx => h x (by simp [hx]))
    simp [List.takeWhile_cons, ha, hl]

/-- Sequencing: a part that meets `cs₁` followed, when it runs to its end,
by a part that meets `cs₂`. -/
theorem Outcome.seq {α β : Type} {pa : α → State} {pb : β → State} {file : ParquetFile}
    {sel : Selection} {base : List Event} {cs₁ cs₂ : List Cell} {x : Except Result α}
    {k : α → Except Result β} {y : Except Result β}
    (h1 : Outcome pa file sel base cs₁ x)
    (h2 : ∀ a, x = .ok a → Clean sel (pa a) → Outcome pb file sel (pa a).trace cs₂ (k a))
    (hy : y = andThen x k) :
    Outcome pb file sel base (cs₁ ++ cs₂) y := by
  subst hy
  unfold andThen
  cases x with
  | error res =>
    obtain ⟨hall, hrc, hseen⟩ := h1
    refine ⟨by simp [hall], hrc, ?_⟩
    rw [takeWhile_append_of_not_all _ _ _ hall]
    exact hseen
  | ok a =>
    obtain ⟨hall, hclean, hseen⟩ := h1
    have hk := h2 a rfl hclean
    simp only
    cases hka : k a with
    | error res =>
      rw [hka] at hk
      obtain ⟨hall2, hrc, hseen2⟩ := hk
      refine ⟨by simp [hall2], hrc, ?_⟩
      have : ∀ c ∈ cs₁, fits file sel c = true := by simpa using hall
      rw [List.takeWhile_append_of_pos this, hseen2, hseen]
      simp
    | ok b =>
      rw [hka] at hk
      obtain ⟨hall2, hclean2, hseen2⟩ := hk
      refine ⟨by simp [hall, hall2], hclean2, ?_⟩
      rw [hseen2, hseen]
      simp

theorem vstoreBody_clean {env : Stata} {file : ParquetFile} {sel : Selection}
    (r j : Nat) (hacc : AcceptsColumn env j) (v : Bytes) (i : Int) (st : State)
    (ht : (typeOf file sel j).isNumeric = true) (hc : Clean sel st) :
    Outcome id file sel st.trace [⟨r, j, v⟩]
      (vstoreBody env (typeOf file sel j) r j v i st) := by
  have hne : typeOf file sel j ≠ .BYTE_ARRAY := by
    intro h
    rw [h] at ht
    cases ht
  simp only [vstoreBody, hacc.1, ne_eq, not_true_eq_false, ↓reduceIte]
  refine ⟨by simp [fits, hne], ⟨rfl, hc.2⟩, ?_⟩
  simp [seen, stores_append, stores, sinkView, hne, Write.col]

theorem byteArrayBody_clean {env : Stata} {file : ParquetFile} {sel : Selection}
    (hM : ∀ j, sel.vtypes.getD j 0 ≤ sel.maxstrlen)
    (r j : Nat) (hacc : AcceptsColumn env j) (v : Bytes) (i : Int) (st : State)
    (ht : typeOf file sel j = .BYTE_ARRAY) (hc : Clean sel st) :
    Outcome id file sel st.trace [⟨r, j, v⟩] (byteArrayBody env sel r j v i st) := by
  simp only [byteArrayBody, hacc.2, ne_eq, not_true_eq_false, ↓reduceIte]
  split
  · rename_i hbig
    have hf : fits file sel ⟨r, j, v⟩ = false := by
      simp only [fits, ht, decide_True, Bool.not_true, Bool.false_or, decide_eq_false_iff_not]
      omega
    refine ⟨by simp [hf], rfl, ?_⟩
    simp [seen, stores_append, stores, List.takeWhile_cons, hf]
  · rename_i hfit
    have hn : v.length ≤ sel.maxstrlen.toNat := by
      have := hM j
      omega
    have hf : fits file sel ⟨r, j, v⟩ = true := by
      simp only [fits, ht, decide_True, Bool.not_true, Bool.false_or, decide_eq_true_eq]
      omega
    refine ⟨by simp [hf], ⟨rfl, ?_⟩, ?_⟩
    · simp only [id, hc.2, memcpy_zero]
      exact memset_handed sel v v.length hn
    · simp [seen, stores_append, stores, sinkView, ht, Write.col, hc.2, memcpy_zero, handed]

theorem whileHasNext_clean {body : Bytes → Int → State → Except Result State}
    {file : ParquetFile} {sel : Selection} (r j : Nat)
    (hstep : ∀ v i st, Clean sel st → Outcome id file sel st.trace [⟨r, j, v⟩] (body v i st)) :
    ∀ (vs : List Bytes) (i : Int) (st : State), Clean sel st →
      Outcome Prod.snd file sel st.trace (vs.map fun v => ⟨r, j, v⟩)
        (whileHasNext body false vs i st) := by
  intro vs
  induction vs with
  | nil =>
    intro i st hc
    exact ⟨rfl, hc, by simp⟩
  | cons v vs ih =>
    intro i st hc
    simp only [whileHasNext, List.map_cons]
    show Outcome Prod.snd file sel st.trace ([⟨r, j, v⟩] ++ vs.map fun v => ⟨r, j, v⟩) _
    refine Outcome.seq (hstep v (i + 1) st hc) (fun st' _ hc' => ih (i + 1) st' hc') ?_
    cases body v (i + 1) st <;> rfl

theorem endColumn_clean {file : ParquetFile} {sel : Selection} {base : List Event}
    {cs : List Cell} {x : Except Result (Int × State)} {y : Except Result State}
    (h : Outcome Prod.snd file sel base cs x)
    (hy : y = andThen x (fun p => .ok (endColumn p))) :
    Outcome id file sel base cs y := by
  have h2 : ∀ p, x = .ok p → Clean sel (Prod.snd p) →
      Outcome id file sel (Prod.snd p).trace [] (Except.ok (endColumn p)) :=
    fun p _ hc => ⟨rfl, ⟨hc.1, hc.2⟩, by simp [endColumn]⟩
  have := Outcome.seq h h2 hy
  simpa using this

theorem readColumn_clean {env : Stata} {file : ParquetFile} {sel : Selection}
    (hM : ∀ j, sel.vtypes.getD j 0 ≤ sel.maxstrlen)
    (r j : Nat) (hacc : AcceptsColumn env j) (st : State)
    (hr : readable file sel r j = true) (hc : Clean sel st) :
    Outcome id file sel st.trace (columnCells file sel r j)
      (readColumn env file sel r j st) := by
  simp only [readable, Bool.and_eq_true, Bool.or_eq_true, decide_eq_true_eq] at hr
  obtain ⟨htype, hcol⟩ := hr
  cases hcol' : file.column r (sel.colix.getD j 0) with
  | none =>
    rw [hcol'] at hcol
    cases hcol
  | some chunk =>
    rw [hcol'] at hcol
    have hraise : chunk.raises = false := by simpa using hcol
    have hcells : columnCells file sel r j = chunk.values.map fun v => ⟨r, j, v⟩ := by
      simp only [columnCells, chunkValues, hcol']
    have hnum : (typeOf file sel j).isNumeric = true → ∀ y,
        y = andThen (whileHasNext (vstoreBody env (typeOf file sel j) r j) chunk.raises
              chunk.values 0 st) (fun p => .ok (endColumn p)) →
        Outcome id file sel st.trace (columnCells file sel r j) y := by
      intro hn y hy
      rw [hcells]
      rw [hraise] at hy
      exact endColumn_clean (whileHasNext_clean r j
        (fun v i st hc => vstoreBody_clean r j hacc v i st hn hc) chunk.values 0 st hc) hy
    unfold readColumn
    simp only [hcol']
    unfold typeOf at htype hnum
    cases ht : file.physical_type (sel.colix.getD j 0) <;> rw [ht] at htype hnum <;>
      simp only
    case INT96 => simp [PhysicalType.isNumeric] at htype
    case UNDEFINED => simp [PhysicalType.isNumeric] at htype
    case FIXED_LEN_BYTE_ARRAY => simp [PhysicalType.isNumeric] at htype
    case BYTE_ARRAY =>
      rw [hcells, hraise]
      refine endColumn_clean (whileHasNext_clean r j
        (fun v i st hc => byteArrayBody_clean hM r j hacc v i st ht hc) chunk.values 0 st hc) ?_
      cases whileHasNext (byteArrayBody env sel r j) false chunk.values 0 st <;> rfl
    all_goals
      refine hnum rfl _ ?_
      generalize whileHasNext _ chunk.raises chunk.values 0 st = x
      cases x <;> rfl

theorem colsLoop_clean {env : Stata} {file : ParquetFile} {sel : Selection}
    (hM : ∀ j, sel.vtypes.getD j 0 ≤ sel.maxstrlen) (r : Nat) :
    ∀ (js : List Nat) (st : State), (∀ j ∈ js, AcceptsColumn env j) →
      (∀ j ∈ js, readable file sel r j = true) →
      Clean sel st →
      Outcome id file sel st.trace (js.flatMap (columnCells file sel r))
        (colsLoop env file sel r js st) := by
  intro js
  induction js with
  | nil =>
    intro st _ _ hc
    exact ⟨rfl, hc, by simp⟩
  | cons j js ih =>
    intro st hacc hr hc
    simp only [colsLoop, List.flatMap_cons]
    refine Outcome.seq (readColumn_clean hM r j (hacc j (by simp)) st (hr j (by simp)) hc)
      (fun st' _ hc' => ih st' (fun j' hj' => hacc j' (by simp [hj']))
        (fun j' hj' => hr j' (by simp [hj'])) hc') ?_
    cases readColumn env file sel r j st <;> rfl

theorem groupsLoop_clean {env : Stata} {file : ParquetFile} {sel : Selection}
    (hacc : Accepting env) (hM : ∀ j, sel.vtypes.getD j 0 ≤ sel.maxstrlen) :
    ∀ (rs : List Nat) (st : State),
      (∀ r ∈ rs, ∀ j ∈ List.range sel.ncol.toNat, readable file sel r j = true) →
      Clean sel st →
      Outcome id file sel st.trace (rs.flatMap (groupCells file sel))
        (groupsLoop env file sel rs st) := by
  intro rs
  induction rs with
  | nil =>
    intro st _ hc
    exact ⟨rfl, hc, by simp⟩
  | cons r rs ih =>
    intro st hr hc
    simp only [groupsLoop, List.flatMap_cons]
    have h1 := colsLoop_clean hM r (List.range sel.ncol.toNat)
      { st with ix := st.ix + st.ig }
      (fun j _ => ⟨fun hist row t v => hacc.1 hist _ row t v,
        fun hist row vstr => hacc.2 hist _ row vstr⟩)
      (hr r (by simp)) ⟨hc.1, hc.2⟩
    refine Outcome.seq h1
      (fun st' _ hc' => ih st' (fun r' hr' => hr r' (by simp [hr'])) hc') ?_
    cases colsLoop env file sel r (List.range sel.ncol.toNat)
      { st with ix := st.ix + st.ig } <;> rfl

/-- A read in which the selection resolves, every selected column can be
pulled to its end in every row group and the sink accepts every store, is
decided by the capacity check alone: the sink receives the values that come
before the first value that does not pass it, and the read returns 0 if all
pass and 17103 otherwise. -/
theorem read_clean {env : Stata} {f : ParquetFile} {sel : Selection}
    (hsel : resolve env = .ok sel) (hacc : Accepting env)
    (hread : ∀ r < f.num_row_groups, ∀ j < sel.ncol.toNat, readable f sel r j = true) :
    seen (sf_ll_read_varlist env (some f)).trace =
        ((cells f sel).takeWhile (fits f sel)).map (sinkView f sel) ∧
    (sf_ll_read_varlist env (some f)).rc =
        if (cells f sel).all (fits f sel) = true then 0 else 17103 := by
  have hM := (resolve_maxstrlen hsel).2
  have h := groupsLoop_clean hacc hM (List.range f.num_row_groups)
    ⟨0, 0, 0, SPARQUET_CHAR sel.maxstrlen, []⟩
    (fun r hr j hj => hread r (by simpa using hr) j (by simpa using hj)) ⟨rfl, rfl⟩
  simp only [sf_ll_read_varlist, hsel]
  cases hx : groupsLoop env f sel (List.range f.num_row_groups)
      ⟨0, 0, 0, SPARQUET_CHAR sel.maxstrlen, []⟩ with
  | error res =>
    rw [hx] at h
    obtain ⟨hall, hrc, hseen⟩ := h
    have hall' : (cells f sel).all (fits f sel) = false := hall
    refine ⟨?_, ?_⟩
    · simpa [seen, stores] using hseen
    · simp [hall', hrc]
  | ok st =>
    rw [hx] at h
    obtain ⟨hall, hclean, hseen⟩ := h
    have hall' : (cells f sel).all (fits f sel) = true := hall
    refine ⟨?_, ?_⟩
    · rw [takeWhile_of_all _ _ hall']
      simpa [seen, stores] using hseen
    · simp only [hall', if_true]
      exact hclean.1

/-! ## The capacity boundary (C4) -/

/-- C4. Capacity boundary for a selected byte-array column `k` whose longest
value has length `L`, in a read where the selection resolves, the sink
accepts every store and nothing else fails (every selected column can be
pulled to its end and the byte arrays of the other columns pass their own
capacity check). With declared capacity `L` for column `k` the read returns 0
and the sink receives every value. With declared capacity `L - 1` the read
returns 17103 and the sink receives exactly the values met before the first
value of column `k` of length `L`: the read fails on that value. -/
theorem capacity_boundary (env : Stata) (f : ParquetFile) (sel : Selection) (k L : Nat)
    (hsel : resolve env = .ok sel) (hacc : Accepting env)
    (hread : ∀ r < f.num_row_groups, ∀ j < sel.ncol.toNat, readable f sel r j = true)
    (hk : typeOf f sel k = .BYTE_ARRAY)
    (hothers : ∀ c ∈ cells f sel, c.j ≠ k → fits f sel c = true)
    (hmax : ∀ c ∈ cells f sel, c.j = k → c.v.length ≤ L)
    (hlong : ∃ c ∈ cells f sel, c.j = k ∧ c.v.length = L) :
    (sel.vtypes.getD k 0 = (L : Int) →
      (sf_ll_read_varlist env (some f)).rc = 0 ∧
      seen (sf_ll_read_varlist env (some f)).trace = (cells f sel).map (sinkView f sel)) ∧
    (sel.vtypes.getD k 0 = (L : Int) - 1 →
      (sf_ll_read_varlist env (some f)).rc = 17103 ∧
      seen (sf_ll_read_varlist env (some f)).trace =
        ((cells f sel).takeWhile fun c => !decide (c.j = k ∧ c.v.length = L)).map
          (sinkView f sel)) := by
  obtain ⟨hseen, hrc⟩ := read_clean hsel hacc hread
  constructor
  · intro hcap
    have hall : (cells f sel).all (fits f sel) = true := by
      rw [List.all_eq_true]
      intro c hc
      by_cases hj : c.j = k
      · have := hmax c hc hj
        simp only [fits, hj, hk, decide_True, Bool.not_true, Bool.false_or, decide_eq_true_eq,
          hcap]
        omega
      · exact hothers c hc hj
    rw [hall] at hrc
    rw [takeWhile_of_all _ _ hall] at hseen
    exact ⟨by simpa using hrc, hseen⟩
  · intro hcap
    have hpt : ∀ c ∈ cells f sel,
        fits f sel c = !decide (c.j = k ∧ c.v.length = L) := by
      intro c hc
      by_cases hj : c.j = k
      · have := hmax c hc hj
        by_cases hl : c.v.length = L
        · simp only [fits, hj, hk, decide_True, Bool.not_true, Bool.false_or, hcap, hl,
            and_self, decide_eq_false_iff_not]
          omega
        · simp only [fits, hj, hk, decide_True, Bool.not_true, Bool.false_or, hcap, hl,
            and_false, decide_False, Bool.not_false, decide_eq_true_eq]
          omega
      · rw [hothers c hc hj]
        simp [hj]
    have hall : (cells f sel).all (fits f sel) = false := by
      obtain ⟨c, hc, hj, hl⟩ := hlong
      have hf : fits f sel c = false := by
        rw [hpt c hc]
        simp [hj, hl]
      cases hb : (cells f sel).all (fits f sel) with
      | false => rfl
      | true =>
        rw [List.all_eq_true] at hb
        rw [hb c hc] at hf
        cases hf
    rw [hall] at hrc
    rw [takeWhile_congr_mem _ _ _ hpt] at hseen
    exact ⟨by simpa using hrc, hseen⟩

/-- C4, instance: an INT32 column and a byte-array column holding "a", "abc"
in the first row group and "de" in the second. With capacity 3 the read
returns 0; with capacity 2 it returns 17103. -/
theorem capacity_boundary_witness :
    ((sf_ll_read_varlist (tableStata (0, 2) [(0, 1), (0, 2)] [(0, 1), (0, 3)] (fun _ => 0))
        (some (tableFile [.INT32, .BYTE_ARRAY] 0
          [[[[1]], [[97], [97, 98, 99]]], [[[2]], [[100, 101]]]]))).rc = 0 ∧
      seen (sf_ll_read_varlist (tableStata (0, 2) [(0, 1), (0, 2)] [(0, 1), (0, 3)] (fun _ => 0))
        (some (tableFile [.INT32, .BYTE_ARRAY] 0
          [[[[1]], [[97], [97, 98, 99]]], [[[2]], [[100, 101]]]]))).trace =
        (cells (tableFile [.INT32, .BYTE_ARRAY] 0
          [[[[1]], [[97], [97, 98, 99]]], [[[2]], [[100, 101]]]]) ⟨2, [0, 1], [1, 3], 3⟩).map
          (sinkView (tableFile [.INT32, .BYTE_ARRAY] 0
            [[[[1]], [[97], [97, 98, 99]]], [[[2]], [[100, 101]]]]) ⟨2, [0, 1], [1, 3], 3⟩)) ∧
    ((sf_ll_read_varlist (tableStata (0, 2) [(0, 1), (0, 2)] [(0, 1), (0, 2)] (fun _ => 0))
        (some (tableFile [.INT32, .BYTE_ARRAY] 0
          [[[[1]], [[97], [97, 98, 99]]], [[[2]], [[100, 101]]]]))).rc = 17103 ∧
      seen (sf_ll_read_varlist (tableStata (0, 2) [(0, 1), (0, 2)] [(0, 1), (0, 2)] (fun _ => 0))
        (some (tableFile [.INT32, .BYTE_ARRAY] 0
          [[[[1]], [[97], [97, 98, 99]]], [[[2]], [[100, 101]]]]))).trace =
        ((cells (tableFile [.INT32, .BYTE_ARRAY] 0
          [[[[1]], [[97], [97, 98, 99]]], [[[2]], [[100, 101]]]])
            ⟨2, [0, 1], [1, 2], 2⟩).takeWhile
              fun c => !decide (c.j = 1 ∧ c.v.length = 3)).map
          (sinkView (tableFile [.INT32, .BYTE_ARRAY] 0
            [[[[1]], [[97], [97, 98, 99]]], [[[2]], [[100, 101]]]]) ⟨2, [0, 1], [1, 2], 2⟩)) :=
  ⟨(capacity_boundary (tableStata (0, 2) [(0, 1), (0, 2)] [(0, 1), (0, 3)] (fun _ => 0))
      (tableFile [.INT32, .BYTE_ARRAY] 0 [[[[1]], [[97], [97, 98, 99]]], [[[2]], [[100, 101]]]])
      ⟨2, [0, 1], [1, 3], 3⟩ 1 3 (by rfl) ⟨fun _ _ _ _ _ => rfl, fun _ _ _ _ => rfl⟩
      (by decide) (by decide) (by decide) (by decide) (by decide)).1 (by decide),
   (capacity_boundary (tableStata (0, 2) [(0, 1), (0, 2)] [(0, 1), (0, 2)] (fun _ => 0))
      (tableFile [.INT32, .BYTE_ARRAY] 0 [[[[1]], [[97], [97, 98, 99]]], [[[2]], [[100, 101]]]])
      ⟨2, [0, 1], [1, 2], 2⟩ 1 3 (by rfl) ⟨fun _ _ _ _ _ => rfl, fun _ _ _ _ => rfl⟩
      (by decide) (by decide) (by decide) (by decide) (by decide)).2 (by decide)⟩

/-! ## A selected INT96 column (C5) -/

theorem readColumn_int96 (env : Stata) (file : ParquetFile) (sel : Selection) (r j : Nat)
    (st : State) (ht : typeOf file sel j = .INT96) :
    readColumn env file sel r j st =
      .error ⟨if (file.column r (sel.colix.getD j 0)).isSome then 17101 else -1, st.trace⟩ := by
  unfold typeOf at ht
  unfold readColumn
  simp only
  cases hcol : file.column r (sel.colix.getD j 0) with
  | none => rfl
  | some chunk =>
    simp only [ht]
    rfl

theorem colsLoop_int96 (env : Stata) (file : ParquetFile) (sel : Selection) (r k : Nat)
    (ht : typeOf file sel k = .INT96) :
    ∀ (js : List Nat) (jb : Nat) (st : State), js.Pairwise (· < ·) → (∀ j ∈ js, jb ≤ j) →
      k ∈ js → ColEntry r jb st →
      ∃ res, colsLoop env file sel r js st = .error res ∧ res.rc ≠ 0 ∧
        Below r k res.trace := by
  intro js
  induction js with
  | nil =>
    intro jb st _ _ hk _
    simp at hk
  | cons j js ih =>
    intro jb st hsorted hlb hk h0
    have hsorted' := List.pairwise_cons.mp hsorted
    by_cases hjk : j = k
    · subst hjk
      have heq := readColumn_int96 env file sel r j st ht
      refine ⟨⟨if (file.column r (sel.colix.getD j 0)).isSome then 17101 else -1, st.trace⟩,
        ?_, ?_, ?_⟩
      · simp only [colsLoop, heq]
      · show (if (file.column r (sel.colix.getD j 0)).isSome then (17101 : Int) else -1) ≠ 0
        split <;> decide
      · exact (h0.2.1.below).mono_below (hlb j (by simp))
    · have hk' : k ∈ js := by
        simp only [List.mem_cons] at hk
        rcases hk with hk | hk
        · exact absurd hk.symm hjk
        · exact hk
      have hlt : j < k := hsorted'.1 k hk'
      have hc := readColumn_pos env file sel r j st (h0.mono_entry (hlb j (by simp)))
      cases hx : readColumn env file sel r j st with
      | error res =>
        refine ⟨res, ?_, (hc.2 _ hx).1, (hc.2 _ hx).2.2.mono_below (by omega)⟩
        simp only [colsLoop, hx]
      | ok st1 =>
        obtain ⟨res, heq, hrc, hb⟩ := ih (j + 1) st1 hsorted'.2
          (fun j' hj' => hsorted'.1 j' hj') hk' (hc.1 _ hx).1
        refine ⟨res, ?_, hrc, hb⟩
        simp only [colsLoop, hx]
        exact heq

theorem colsLoop_append (env : Stata) (file : ParquetFile) (sel : Selection) (r : Nat) :
    ∀ (a b : List Nat) (st : State),
      colsLoop env file sel r (a ++ b) st =
        andThen (colsLoop env file sel r a st) (fun st' => colsLoop env file sel r b st') := by
  intro a
  induction a with
  | nil => intro b st; rfl
  | cons j a ih =>
    intro b st
    simp only [List.cons_append, colsLoop]
    cases readColumn env file sel r j st with
    | error res => rfl
    | ok st' => exact ih b st'

theorem range_split : ∀ (n k : Nat), k < n → ∃ rest, List.range n = List.range k ++ k :: rest := by
  intro n
  induction n with
  | zero => intro k hk; omega
  | succ n ih =>
    intro k hk
    by_cases hkn : k = n
    · subst hkn
      exact ⟨[], List.range_succ k⟩
    · obtain ⟨rest, hrest⟩ := ih k (by omega)
      refine ⟨rest ++ [n], ?_⟩
      rw [List.range_succ, hrest]
      simp

theorem read_first_group_error {env : Stata} {f : ParquetFile} {sel : Selection}
    {res : Result} (hsel : resolve env = .ok sel) (hn : 0 < f.num_row_groups)
    (h : colsLoop env f sel 0 (List.range sel.ncol.toNat)
      ⟨0, 0 + 0, 0, SPARQUET_CHAR sel.maxstrlen, []⟩ = .error res) :
    sf_ll_read_varlist env (some f) = res := by
  obtain ⟨rest, hrest⟩ := range_split f.num_row_groups 0 hn
  simp only [sf_ll_read_varlist, hsel, hrest, List.range_zero, List.nil_append, groupsLoop, h]

/-- C5, as amended. If the column selected at position `k` is of type INT96
(the selection resolves and the file opens), the sink receives no store for
that column, for a column selected after it, or in a row group after the
first: every store is of the first row group and of a column selected before
`k`, so there is none when `k = 0`. If the file has a row group the read
does not return 0. If moreover the columns selected before `k` are pulled to
their end in the first row group without failure (each is numeric or a byte
array, its cursor is yielded and does not throw, its byte arrays pass the
capacity check and the sink accepts the stores to it; nothing is asked when
`k = 0`), the sink receives exactly their values of the first row group, and
the read returns 17101 if the reader yields the cursor of column `k` in the
first row group and -1 if it throws there. -/
theorem int96_stops (env : Stata) (f : ParquetFile) (sel : Selection) (k : Nat)
    (hsel : resolve env = .ok sel) (hk : k < sel.ncol.toNat)
    (ht : typeOf f sel k = .INT96) :
    (∀ w, Event.store w ∈ (sf_ll_read_varlist env (some f)).trace → w.r = 0 ∧ w.j < k) ∧
    (0 < f.num_row_groups → (sf_ll_read_varlist env (some f)).rc ≠ 0) ∧
    (0 < f.num_row_groups →
      (∀ j < k, AcceptsColumn env j) →
      (∀ j < k, readable f sel 0 j = true) →
      (∀ j < k, ∀ c ∈ columnCells f sel 0 j, fits f sel c = true) →
      (sf_ll_read_varlist env (some f)).rc =
        (if (f.column 0 (sel.colix.getD k 0)).isSome then 17101 else -1) ∧
      seen (sf_ll_read_varlist env (some f)).trace =
        ((List.range k).flatMap (columnCells f sel 0)).map (sinkView f sel)) := by
  by_cases hn : 0 < f.num_row_groups
  · have h0 : ColEntry 0 0 ⟨0, 0 + 0, 0, SPARQUET_CHAR sel.maxstrlen, []⟩ :=
      ⟨le_refl _, fun _ h => by simp at h, fun _ _ h => by simp at h⟩
    obtain ⟨res, heq, hrc, hbelow⟩ := colsLoop_int96 env f sel 0 k ht
      (List.range sel.ncol.toNat) 0 _ (List.pairwise_lt_range _) (fun _ _ => Nat.zero_le _)
      (by simpa using hk) h0
    have hres := read_first_group_error hsel hn heq
    rw [hres]
    refine ⟨?_, fun _ => hrc, ?_⟩
    · intro w hw
      rcases hbelow w hw with h | h
      · omega
      · exact h
    · intro _ hacc hread hfits
      have hM := (resolve_maxstrlen hsel).2
      obtain ⟨rest, hrest⟩ := range_split sel.ncol.toNat k hk
      have hclean := colsLoop_clean hM 0 (List.range k)
        ⟨0, 0 + 0, 0, SPARQUET_CHAR sel.maxstrlen, []⟩
        (fun j hj => hacc j (by simpa using hj))
        (fun j hj => hread j (by simpa using hj)) ⟨rfl, rfl⟩
      have hall : ((List.range k).flatMap (columnCells f sel 0)).all (fits f sel) = true := by
        rw [List.all_eq_true]
        intro c hc
        rw [List.mem_flatMap] at hc
        obtain ⟨j, hj, hcj⟩ := hc
        exact hfits j (by simpa using hj) c hcj
      rw [hrest, colsLoop_append] at heq
      cases hx : colsLoop env f sel 0 (List.range k)
          ⟨0, 0 + 0, 0, SPARQUET_CHAR sel.maxstrlen, []⟩ with
      | error e =>
        rw [hx] at hclean
        have := hclean.1
        rw [hall] at this
        cases this
      | ok st' =>
        rw [hx] at hclean heq
        have hcol' := readColumn_int96 env f sel 0 k st' ht
        simp only [andThen, colsLoop, hcol'] at heq
        cases heq
        refine ⟨rfl, ?_⟩
        simpa [seen, stores] using hclean.2.2
  · have hz : f.num_row_groups = 0 := by omega
    have htr : sf_ll_read_varlist env (some f) = ⟨0, []⟩ := by
      simp only [sf_ll_read_varlist, hsel, hz, List.range_zero, groupsLoop]
    rw [htr]
    refine ⟨fun w hw => by simp at hw, fun h => absurd h hn, fun h => absurd h hn⟩

/-- C5, instances of the amended claim. An INT32 column holding 7 selected
before an INT96 column, one row group, a sink that accepts the stores: the
sink receives the 7 and the read returns 17101. An INT96 column selected
first and a sink that refuses every store: the sink receives nothing and the
read returns 17101. The first file again, read through a reader that throws
on the request for the cursor of the INT96 column: the sink receives the 7
and the read returns -1. -/
theorem int96_stops_witness :
    ((sf_ll_read_varlist (tableStata (0, 2) [(0, 1), (0, 2)] [(0, 1), (0, 1)] (fun _ => 0))
        (some (tableFile [.INT32, .INT96] 0 [[[[7]], []]]))).rc = 17101 ∧
      seen (sf_ll_read_varlist (tableStata (0, 2) [(0, 1), (0, 2)] [(0, 1), (0, 1)] (fun _ => 0))
        (some (tableFile [.INT32, .INT96] 0 [[[[7]], []]]))).trace =
        [(1, .num .INT32 [7])]) ∧
    ((sf_ll_read_varlist (tableStata (0, 2) [(0, 2), (0, 1)] [(0, 1), (0, 1)] (fun _ => 5))
        (some (tableFile [.INT32, .INT96] 0 [[[[7]], []]]))).rc = 17101 ∧
      seen (sf_ll_read_varlist (tableStata (0, 2) [(0, 2), (0, 1)] [(0, 1), (0, 1)] (fun _ => 5))
        (some (tableFile [.INT32, .INT96] 0 [[[[7]], []]]))).trace = []) ∧
    ((sf_ll_read_varlist (tableStata (0, 2) [(0, 1), (0, 2)] [(0, 1), (0, 1)] (fun _ => 0))
        (some (withoutCursor (tableFile [.INT32, .INT96] 0 [[[[7]], []]]) 1))).rc = -1 ∧
      seen (sf_ll_read_varlist (tableStata (0, 2) [(0, 1), (0, 2)] [(0, 1), (0, 1)] (fun _ => 0))
        (some (withoutCursor (tableFile [.INT32, .INT96] 0 [[[[7]], []]]) 1))).trace =
        [(1, .num .INT32 [7])]) :=
  ⟨(int96_stops (tableStata (0, 2) [(0, 1), (0, 2)] [(0, 1), (0, 1)] (fun _ => 0))
      (tableFile [.INT32, .INT96] 0 [[[[7]], []]]) ⟨2, [0, 1], [1, 1], 1⟩ 1
      (by rfl) (by decide) (by decide)).2.2 (by decide)
      (fun _ _ => ⟨fun _ _ _ _ => rfl, fun _ _ _ => rfl⟩) (by decide) (by decide),
   (int96_stops (tableStata (0, 2) [(0, 2), (0, 1)] [(0, 1), (0, 1)] (fun _ => 5))
      (tableFile [.INT32, .INT96] 0 [[[[7]], []]]) ⟨2, [1, 0], [1, 1], 1⟩ 0
      (by rfl) (by decide) (by decide)).2.2 (by decide)
      (fun _ hj => absurd hj (Nat.not_lt_zero _)) (by decide) (by decide),
   (int96_stops (tableStata (0, 2) [(0, 1), (0, 2)] [(0, 1), (0, 1)] (fun _ => 0))
      (withoutCursor (tableFile [.INT32, .INT96] 0 [[[[7]], []]]) 1) ⟨2, [0, 1], [1, 1], 1⟩ 1
      (by rfl) (by decide) (by decide)).2.2 (by decide)
      (fun _ _ => ⟨fun _ _ _ _ => rfl, fun _ _ _ => rfl⟩) (by decide) (by decide)⟩

/-- C5, counterexample to the claim as stated: an INT32 column holding 7 is
selected before an INT96 column. The read returns 17101, but the sink has
received a store: the 7 was written at row 1 before the INT96 column was
reached. -/
theorem int96_after_a_write :
    typeOf (tableFile [.INT32, .INT96] 0 [[[[7]], []]]) ⟨2, [0, 1], [1, 1], 1⟩ 1 = .INT96 ∧
    sf_ll_read_varlist (tableStata (0, 2) [(0, 1), (0, 2)] [(0, 1), (0, 1)] (fun _ => 0))
        (some (tableFile [.INT32, .INT96] 0 [[[[7]], []]])) =
      ⟨17101, [.pull .INT32 0 0 [7], .store ⟨0, 0, 1, 0, .num .INT32 [7], 0⟩]⟩ ∧
    stores (sf_ll_read_varlist (tableStata (0, 2) [(0, 1), (0, 2)] [(0, 1), (0, 1)] (fun _ => 0))
        (some (tableFile [.INT32, .INT96] 0 [[[[7]], []]]))).trace ≠ [] := by
  decide

end SParquet
